import Mathlib

/-!
Verification of the `multipart-form-body-parser` package: a shallow
embedding in Lean 4 of its single-pass byte-level multipart/form-data
decoder (`parseMultipartFormData` and its helpers), together with proofs
and refutations of the behavioural claims made by the package's design
specification.

Modelling conventions:
* A JS `Uint8Array` is a `Buffer := List Nat` of byte values; `subarray`
  becomes `List.drop`/`List.take` (which clamp exactly like `subarray`),
  and an out-of-bounds read `a[i]` (which yields `undefined` in JS, making
  every strict comparison with a number false) becomes `List.get? i`.
* The platform's `TextEncoder`/`TextDecoder` are modelled by `encodeUTF8`
  and `decodeUTF8` (UTF-8 with U+FFFD replacement on malformed input), and
  `JSON.parse` by `jsonParse` (numeric literals are kept as their source
  text, since IEEE-754 value semantics are outside this embedding; no
  claim depends on the specifics of JSON parsing).
* JS truthiness on the `name`/`filename`/`contentType` variables (where
  both `undefined` and `""` are falsy) is modelled by `jsFalsy` on
  `Option String`.
* The source's `while`/`do-while` loops become recursive functions driven
  by an explicit fuel argument so that every definition is structurally
  recursive and kernel-computable.  Loops that provably terminate are
  always called with a fuel that is provably sufficient (the fuel-0 row
  coincides with the loop's guard-failure row), so no behaviour is lost;
  the two loops that can genuinely run forever (the per-part body scan
  and the outer part loop) surface their divergence as `Option.none`,
  quantified over all fuels.
-/

/-- A raw byte buffer: the model of a JS `Uint8Array` (each element a byte value). -/
abbrev Buffer := List Nat

/-- Byte value of CR (0x0d). -/
def crByte : Nat := 0x0d

/-- Byte value of LF (0x0a). -/
def lfByte : Nat := 0x0a

/-- Source constant `finalByte = encoder.encode('-')[0]`. -/
def finalByte : Nat := 45

/-- Source constant `equalUTF8 = encoder.encode('=')[0]`. -/
def equalUTF8 : Nat := 61

/-- Source constant `quoteUTF8 = encoder.encode('"')[0]`. -/
def quoteUTF8 : Nat := 34

/-- UTF-8 encoding of a single character (the standard 1-4 byte encoding),
used to model the platform's `TextEncoder`. -/
def utf8EncodeChar (c : Char) : Buffer :=
  let n := c.toNat
  if n < 0x80 then [n]
  else if n < 0x800 then [0xc0 + n / 64, 0x80 + n % 64]
  else if n < 0x10000 then [0xe0 + n / 4096, 0x80 + (n / 64) % 64, 0x80 + n % 64]
  else [0xf0 + n / 262144, 0x80 + (n / 4096) % 64, 0x80 + (n / 64) % 64, 0x80 + n % 64]

/-- Model of `new TextEncoder().encode(s)`: the UTF-8 bytes of `s`. -/
def encodeUTF8 (s : String) : Buffer :=
  s.data.foldr (fun c acc => utf8EncodeChar c ++ acc) []

/-- The U+FFFD replacement character emitted by `TextDecoder` on malformed input. -/
def replacementChar : Char := Char.ofNat 0xfffd

/-- Whether a byte is a UTF-8 continuation byte (10xxxxxx). -/
def isCont (b : Nat) : Bool := 0x80 ≤ b && b < 0xc0

/-- Decoder core for `decodeUTF8`: consumes one scalar value (or emits one
replacement character) per step; structural recursion on the byte list. -/
def decodeUTF8Go : Buffer → List Char
  | [] => []
  | b :: rest =>
    if b < 0x80 then Char.ofNat b :: decodeUTF8Go rest
    else if 0xc2 ≤ b && b ≤ 0xdf then
      match rest with
      | c1 :: rest1 =>
        if isCont c1 then Char.ofNat ((b - 0xc0) * 64 + (c1 - 0x80)) :: decodeUTF8Go rest1
        else replacementChar :: decodeUTF8Go (c1 :: rest1)
      | [] => [replacementChar]
    else if 0xe0 ≤ b && b ≤ 0xef then
      match rest with
      | c1 :: c2 :: rest2 =>
        let cp := (b - 0xe0) * 4096 + (c1 - 0x80) * 64 + (c2 - 0x80)
        if isCont c1 && isCont c2 && decide (0x800 ≤ cp) &&
            !(decide (0xd800 ≤ cp) && decide (cp ≤ 0xdfff)) then
          Char.ofNat cp :: decodeUTF8Go rest2
        else replacementChar :: decodeUTF8Go (c1 :: c2 :: rest2)
      | [c1] => if isCont c1 then [replacementChar] else [replacementChar, replacementChar]
      | [] => [replacementChar]
    else if 0xf0 ≤ b && b ≤ 0xf4 then
      match rest with
      | c1 :: c2 :: c3 :: rest3 =>
        let cp := (b - 0xf0) * 262144 + (c1 - 0x80) * 4096 + (c2 - 0x80) * 64 + (c3 - 0x80)
        if isCont c1 && isCont c2 && isCont c3 && decide (0x10000 ≤ cp) &&
            decide (cp ≤ 0x10ffff) then
          Char.ofNat cp :: decodeUTF8Go rest3
        else replacementChar :: decodeUTF8Go (c1 :: c2 :: c3 :: rest3)
      | c1 :: c2 :: [] => replacementChar :: decodeUTF8Go (c1 :: c2 :: [])
      | [c1] => if isCont c1 then [replacementChar] else [replacementChar, replacementChar]
      | [] => [replacementChar]
    else replacementChar :: decodeUTF8Go rest

/-- Model of `new TextDecoder().decode(bytes)`: UTF-8 decoding with U+FFFD
replacement of malformed sequences. -/
def decodeUTF8 (bytes : Buffer) : String :=
  String.mk (decodeUTF8Go bytes)

/-- Source constant `contentDispositionPrefixUTF8`. -/
def contentDispositionPrefixUTF8 : Buffer := encodeUTF8 "Content-Disposition: form-data;"

/-- Source constant `contentTypePrefixUTF8`. -/
def contentTypePrefixUTF8 : Buffer := encodeUTF8 "Content-Type:"

/-- Source constant `nameUTF8`. -/
def nameUTF8 : Buffer := encodeUTF8 "name"

/-- Source constant `filenameUTF8`. -/
def filenameUTF8 : Buffer := encodeUTF8 "filename"

/-- Model of the source's `arrayEq(a, b)`: true iff lengths and byte content
match exactly. -/
def arrayEq (a b : Buffer) : Bool := a == b

/-- Model of the source's `startsWithArrayPrefix(arr, prefixArr)`:
`arrayEq(arr.subarray(0, prefixArr.length), prefixArr)`.  (Renamed from the
source's identifier for this development.) -/
def arrayStartsWith (arr prefixArr : Buffer) : Bool :=
  arrayEq (arr.take prefixArr.length) prefixArr

/-- JSON abstract syntax, the output type of the modelled `JSON.parse`.
Numeric literals keep their source text: IEEE-754 double semantics are
outside this embedding, and no claim depends on them. -/
inductive Json where
  | null
  | bool (b : Bool)
  | num (lit : String)
  | str (s : String)
  | arr (elems : List Json)
  | obj (fields : List (String × Json))

/-- Skip JSON whitespace (space, tab, LF, CR). -/
def jsonSkipWs : List Char → List Char
  | c :: rest =>
    if c.toNat == 32 || c.toNat == 9 || c.toNat == 10 || c.toNat == 13 then jsonSkipWs rest
    else c :: rest
  | [] => []

/-- Value of a hexadecimal digit character, if it is one. -/
def jsonHexDigit (c : Char) : Option Nat :=
  let n := c.toNat
  if 48 ≤ n && n ≤ 57 then some (n - 48)
  else if 97 ≤ n && n ≤ 102 then some (n - 87)
  else if 65 ≤ n && n ≤ 70 then some (n - 55)
  else none

/-- Parse the characters of a JSON string after its opening quote, handling
the standard escapes; returns the decoded characters and the remaining
input after the closing quote. -/
def jsonStringChars : List Char → Option (List Char × List Char)
  | [] => none
  | c :: rest =>
    if c.toNat == 34 then some ([], rest)
    else if c.toNat == 92 then
      match rest with
      | [] => none
      | e :: rest2 =>
        if e.toNat == 117 then
          match rest2 with
          | h1 :: h2 :: h3 :: h4 :: rest6 =>
            match jsonHexDigit h1, jsonHexDigit h2, jsonHexDigit h3, jsonHexDigit h4 with
            | some a, some b, some c2, some d =>
              match jsonStringChars rest6 with
              | some (cs, rem) => some (Char.ofNat (((a * 16 + b) * 16 + c2) * 16 + d) :: cs, rem)
              | none => none
            | _, _, _, _ => none
          | _ => none
        else
          let esc : Option Char :=
            if e.toNat == 34 || e.toNat == 92 || e.toNat == 47 then some e
            else if e.toNat == 98 then some (Char.ofNat 8)
            else if e.toNat == 102 then some (Char.ofNat 12)
            else if e.toNat == 110 then some (Char.ofNat 10)
            else if e.toNat == 114 then some (Char.ofNat 13)
            else if e.toNat == 116 then some (Char.ofNat 9)
            else none
          match esc with
          | some ch =>
            match jsonStringChars rest2 with
            | some (cs, rem) => some (ch :: cs, rem)
            | none => none
          | none => none
    else if c.toNat < 32 then none
    else
      match jsonStringChars rest with
      | some (cs, rem) => some (c :: cs, rem)
      | none => none

/-- Take a maximal run of decimal digit characters. -/
def jsonDigits : List Char → (List Char × List Char)
  | [] => ([], [])
  | c :: rest =>
    if 48 ≤ c.toNat && c.toNat ≤ 57 then
      let p := jsonDigits rest
      (c :: p.fst, p.snd)
    else ([], c :: rest)

/-- Parse a JSON numeric literal, returning its source characters and the
remaining input. -/
def jsonNumber (cs0 : List Char) : Option (List Char × List Char) :=
  let p1 : List Char × List Char :=
    match cs0 with
    | c :: rest => if c.toNat == 45 then ([c], rest) else ([], cs0)
    | [] => ([], [])
  match p1.snd with
  | [] => none
  | c :: rest =>
    let intPart : Option (List Char × List Char) :=
      if c.toNat == 48 then some ([c], rest)
      else if 49 ≤ c.toNat && c.toNat ≤ 57 then
        let p := jsonDigits rest
        some (c :: p.fst, p.snd)
      else none
    match intPart with
    | none => none
    | some (ip, cs2) =>
      let frac : Option (List Char × List Char) :=
        match cs2 with
        | d :: r =>
          if d.toNat == 46 then
            match jsonDigits r with
            | ([], _) => none
            | (ds, rem) => some (d :: ds, rem)
          else some ([], cs2)
        | [] => some ([], [])
      match frac with
      | none => none
      | some (fp, cs3) =>
        let expPart : Option (List Char × List Char) :=
          match cs3 with
          | e :: r =>
            if e.toNat == 101 || e.toNat == 69 then
              let p2 : List Char × List Char :=
                match r with
                | sgn :: r3 => if sgn.toNat == 43 || sgn.toNat == 45 then ([sgn], r3) else ([], r)
                | [] => ([], [])
              match jsonDigits p2.snd with
              | ([], _) => none
              | (ds, rem) => some (e :: (p2.fst ++ ds), rem)
            else some ([], cs3)
          | [] => some ([], [])
        match expPart with
        | none => none
        | some (ep, cs4) => some (p1.fst ++ ip ++ fp ++ ep, cs4)

/-- Parsing task for `jsonParseGo`: a value, or the remaining items of an
array or object whose opening bracket was already consumed. -/
inductive JTask where
  | value
  | arrTail (acc : List Json)
  | objTail (acc : List (String × Json))

/-- Recursive-descent JSON parsing, fuelled (each nesting step consumes
input, so the generous fuel in `jsonParse` is never exhausted). -/
def jsonParseGo : Nat → JTask → List Char → Option (Json × List Char)
  | 0, _, _ => none
  | fuel+1, .value, cs =>
    match jsonSkipWs cs with
    | [] => none
    | c :: rest =>
      if c.toNat == 34 then
        match jsonStringChars rest with
        | some (body, rem) => some (.str (String.mk body), rem)
        | none => none
      else if c.toNat == 123 then
        match jsonSkipWs rest with
        | d :: rest2 =>
          if d.toNat == 125 then some (.obj [], rest2)
          else jsonParseGo fuel (.objTail []) (d :: rest2)
        | [] => none
      else if c.toNat == 91 then
        match jsonSkipWs rest with
        | d :: rest2 =>
          if d.toNat == 93 then some (.arr [], rest2)
          else jsonParseGo fuel (.arrTail []) (d :: rest2)
        | [] => none
      else if c.toNat == 116 then
        if ['r', 'u', 'e'].isPrefixOf rest then some (.bool true, rest.drop 3) else none
      else if c.toNat == 102 then
        if ['a', 'l', 's', 'e'].isPrefixOf rest then some (.bool false, rest.drop 4) else none
      else if c.toNat == 110 then
        if ['u', 'l', 'l'].isPrefixOf rest then some (.null, rest.drop 3) else none
      else
        match jsonNumber (c :: rest) with
        | some (lit, rem) => some (.num (String.mk lit), rem)
        | none => none
  | fuel+1, .arrTail acc, cs =>
    match jsonParseGo fuel .value cs with
    | none => none
    | some (v, rem) =>
      match jsonSkipWs rem with
      | d :: rest =>
        if d.toNat == 44 then jsonParseGo fuel (.arrTail (acc ++ [v])) rest
        else if d.toNat == 93 then some (.arr (acc ++ [v]), rest)
        else none
      | [] => none
  | fuel+1, .objTail acc, cs =>
    match jsonSkipWs cs with
    | c :: rest =>
      if c.toNat == 34 then
        match jsonStringChars rest with
        | some (key, rem) =>
          match jsonSkipWs rem with
          | d :: rest2 =>
            if d.toNat == 58 then
              match jsonParseGo fuel .value rest2 with
              | none => none
              | some (v, rem2) =>
                match jsonSkipWs rem2 with
                | e :: rest3 =>
                  if e.toNat == 44 then
                    jsonParseGo fuel (.objTail (acc ++ [(String.mk key, v)])) rest3
                  else if e.toNat == 125 then some (.obj (acc ++ [(String.mk key, v)]), rest3)
                  else none
                | [] => none
            else none
          | [] => none
        | none => none
      else none
    | [] => none

/-- Model of the platform's `JSON.parse` applied to a string (structure and
error behaviour; numeric values kept textual). -/
def jsonParse (s : String) : Except String Json :=
  match jsonParseGo (2 * s.length + 2) .value s.data with
  | some (v, rem) =>
    if jsonSkipWs rem == [] then .ok v else .error "SyntaxError: Unexpected token in JSON"
  | none => .error "SyntaxError: Unexpected token in JSON"

/-- Output of a content processor: the built-in processors produce raw
bytes, decoded text, or parsed JSON, and caller-supplied ones may produce
any of these shapes.  The last three constructors cover the values that
come back when the source accidentally invokes an inherited
`Object.prototype` member as the processor (see `protoMemberCall`): a JS
boolean, `undefined`, or the merged registry object itself — the latter
kept opaque, since nothing in the program ever looks inside it again. -/
inductive Value where
  | bytes (b : Buffer)
  | str (s : String)
  | json (j : Json)
  | jsBool (b : Bool)
  | jsUndefined
  | registryObject

/-- A content processor: a pure function from the raw body bytes to a
value, which may also fail (modelling a JS callback that throws). -/
abbrev Processor := Buffer → Except String Value

/-- A processor registry, the model of a JS object whose keys are MIME
types: an association list where a later binding overrides an earlier one
(matching object-literal spread semantics). -/
abbrev ContentProcessors := List (String × Processor)

/-- Property lookup on a processor-registry object; the last binding for a
key wins, matching JS object-literal/spread evaluation. -/
def objGet : ContentProcessors → String → Option Processor
  | [], _ => none
  | (k, v) :: rest, key =>
    match objGet rest key with
    | some p => some p
    | none => if k == key then some v else none

/-- Own-key presence on a registry object.  The JS `key in obj` test used
by the source additionally sees the properties inherited from
`Object.prototype` (the object is a plain literal); that full test is
`objHas o key || decide (key ∈ objectProtoNames)`, see `processContent`. -/
def objHas (o : ContentProcessors) (key : String) : Bool :=
  (objGet o key).isSome

/-- The own property names of `Object.prototype` (V8 / Node and the
browsers): a plain object literal inherits exactly these, so both the JS
`in` operator and plain property reads on such an object see them in
addition to the own keys. -/
def objectProtoNames : List String :=
  ["constructor", "__defineGetter__", "__defineSetter__", "hasOwnProperty",
   "__lookupGetter__", "__lookupSetter__", "isPrototypeOf", "propertyIsEnumerable",
   "toString", "valueOf", "__proto__", "toLocaleString"]

/-- JS `String(uint8array)`: the elements rendered in decimal and joined
with commas (`Array.prototype.toString` reached through the typed-array
prototype chain) — the property key the inherited `hasOwnProperty` and
`propertyIsEnumerable` receive when the source passes them the body
bytes. -/
def jsStringOfUint8Array (b : Buffer) : String :=
  String.intercalate "," (b.map (fun n => toString n))

/-- The source's processor call `contentProcessors[contentType](content)`
in the case where `contentType` names an inherited `Object.prototype`
member rather than an own key: the inherited member is invoked with `this`
bound to the registry object and the body bytes as the single argument.
`toString` and `toLocaleString` produce the string "[object Object]" (the
latter delegates to `this.toString`; the row assumes no own `toString`
binding, the only situation any theorem below reaches); `constructor` is
`Object`, which returns its object argument unchanged, so the raw bytes
come back; `hasOwnProperty` and `propertyIsEnumerable` test the own key
named by the byte array's string conversion; `isPrototypeOf` is false (a
plain registry object never sits in a `Uint8Array`'s prototype chain);
`__lookupGetter__` and `__lookupSetter__` find no accessor so named and
return `undefined`; `__defineGetter__` and `__defineSetter__` throw on the
missing function argument; and `__proto__` reads as `Object.prototype`,
which is not callable, so that call throws as well (the thrown host
`TypeError`s carry host-defined messages, abbreviated here). -/
def protoMemberCall (registry : ContentProcessors) (member : String) (content : Buffer) :
    Except String Value :=
  if member = "toString" ∨ member = "toLocaleString" then .ok (.str "[object Object]")
  else if member = "constructor" then .ok (.bytes content)
  else if member = "hasOwnProperty" ∨ member = "propertyIsEnumerable" then
    .ok (.jsBool (objHas registry (jsStringOfUint8Array content)))
  else if member = "isPrototypeOf" then .ok (.jsBool false)
  else if member = "__lookupGetter__" ∨ member = "__lookupSetter__" then .ok .jsUndefined
  else if member = "valueOf" then .ok .registryObject
  else .error "TypeError"

/-- The three built-in processors of `parseMultipartFormData`:
`text/plain` decodes UTF-8 text, `application/json` decodes then parses
JSON, and `default` returns the raw byte range unchanged. -/
def builtinProcessors : ContentProcessors :=
  [("text/plain", fun content => .ok (.str (decodeUTF8 content))),
   ("application/json", fun content => (jsonParse (decodeUTF8 content)).map Value.json),
   ("default", fun content => .ok (.bytes content))]

/-- The merged registry `contentProcessorsWithDefaults` built at the top of
`parseMultipartFormData`: caller-supplied bindings override the built-ins
key by key (appending preserves spread semantics under `objGet`). -/
def contentProcessorsWithDefaults (contentProcessors : ContentProcessors) : ContentProcessors :=
  builtinProcessors ++ contentProcessors

/-- The per-part result object `{contentType, data, ...(filename ? {filename} : {})}`. -/
structure Entry where
  contentType : String
  data : Value
  filename : Option String

/-- The value stored under one field name: a scalar `Entry`, the ordered
list used once the name repeats, or — for a field name colliding with an
inherited `Object.prototype` member — the array whose first element is
that inherited member: `protoFirst m es` models the JS array
`[inherited member m, ...es]` the source builds when the first read of
`result[name]` finds the inherited member instead of `undefined`. -/
inductive ResultValue where
  | single (e : Entry)
  | multiple (es : List Entry)
  | protoFirst (member : String) (es : List Entry)

/-- The result object: field names to entries, in insertion order (the
model of a JS object used as a map). -/
abbrev ParseResult := List (String × ResultValue)

/-- Model of the source's `processContent`: the key is chosen by the JS
`in` test — an own key or an inherited `Object.prototype` member — with
fallback to `'default'`; the processor is then read as a property of the
registry object, so an own binding is used when present and the inherited
member is invoked otherwise (`protoMemberCall`).  The final row needs the
merged registry to lack the `default` own binding and is unreachable from
the parse driver. -/
def processContent (contentProcessors : ContentProcessors) (contentType : String)
    (content : Buffer) (filename : Option String) : Except String Entry :=
  let key := if objHas contentProcessors contentType
      || decide (contentType ∈ objectProtoNames) then contentType else "default"
  match objGet contentProcessors key with
  | some proc =>
    (proc content).map fun d => { contentType := contentType, data := d, filename := filename }
  | none =>
    if key ∈ objectProtoNames then
      (protoMemberCall contentProcessors key content).map fun d =>
        { contentType := contentType, data := d, filename := filename }
    else .error "TypeError: contentProcessors[key] is not a function"

/-- Model of the source's `addContentToResult`: `result[name]` is read
through the prototype chain of the plain result object, so a name that is
neither an own key nor an inherited `Object.prototype` member inserts the
scalar entry; an own array value gets the entry pushed; any other value
found — a scalar entry, or on the first occurrence of a colliding name the
inherited member itself — is not `undefined` and not an array, so the
two-element array `[value, entry]` is stored as an own key.  (The one JS
special case not modelled: an assignment through the inherited `__proto__`
accessor mutates the object's prototype instead of creating an own key;
no statement below concerns that name — the aggregation theorem excludes
every inherited name.) -/
def addContentToResult : ParseResult → String → Entry → ParseResult
  | [], name, content =>
    if name ∈ objectProtoNames then [(name, .protoFirst name [content])]
    else [(name, .single content)]
  | (k, v) :: rest, name, content =>
    if k == name then
      match v with
      | .single existing => (k, .multiple [existing, content]) :: rest
      | .multiple es => (k, .multiple (es ++ [content])) :: rest
      | .protoFirst m es => (k, .protoFirst m (es ++ [content])) :: rest
    else (k, v) :: addContentToResult rest name content

/-- Scan core of `getLineEndIdx`: looks for the first CR immediately
followed by LF at pair position `(i - 1, i)` with `i ≥ offset + 1`.  The
fuel-0 row returns the same value as the loop-exit row, and every call
supplies fuel at least `array.length - i`, so the function equals the
source's unbounded loop. -/
def getLineEndIdxGo (array : Buffer) : Nat → Nat → Nat
  | 0, _ => array.length
  | fuel+1, i =>
    if i < array.length then
      if array.get? (i - 1) == some crByte && array.get? i == some lfByte then i - 1
      else getLineEndIdxGo array fuel (i + 1)
    else array.length

/-- Model of the source's `getLineEndIdx`: the index of the CR of the first
CRLF whose LF lies strictly after `offset`; `array.length` if none. -/
def getLineEndIdx (array : Buffer) (offset : Nat) : Nat :=
  getLineEndIdxGo array array.length (offset + 1)

/-- JS truthiness of the parser's string-or-undefined variables: both
`undefined` and the empty string are falsy. -/
def jsFalsy : Option String → Bool
  | none => true
  | some s => s == ""

/-- A captured quoted parameter: its decoded value and the scan offset just
past the closing quote. -/
structure ExtractedParam where
  data : String
  offset : Nat

/-- Quote-scan core of `extractParam`: find the next `"` byte from position
`i`; reaching the end of the buffer first is the structural error thrown by
the source.  Fuel-0 coincides with the end-of-buffer row. -/
def extractParamGo (params : Buffer) : Nat → Nat → Nat → Except String ExtractedParam
  | 0, _, _ => .error "Something went wrong during the params extraction"
  | fuel+1, endI, i =>
    if i < params.length then
      if params.get? i == some quoteUTF8 then
        .ok { data := decodeUTF8 ((params.drop (endI + 2)).take (i - (endI + 2))),
              offset := i + 1 }
      else extractParamGo params fuel endI (i + 1)
    else .error "Something went wrong during the params extraction"

/-- Model of the source's `extractParam`: recognize `paramKey` followed by
`=` at the start of `params` (the byte after `=` is skipped unchecked),
then capture everything up to the next `"` byte, decoded as UTF-8. -/
def extractParam (params paramKey : Buffer) : Except String (Option ExtractedParam) :=
  let endI := paramKey.length
  if !(params.get? endI == some equalUTF8) || !(arrayEq (params.take endI) paramKey) then
    .ok none
  else (extractParamGo params params.length endI (endI + 2)).map some

/-- The `name`/`filename` parameters captured from a Content-Disposition
header line. -/
structure CDParams where
  name : Option String
  filename : Option String

/-- Result of `readContentDisposition`: the captured parameters and the
offset just past the line's terminating CRLF. -/
structure CDResult where
  params : CDParams
  offset : Nat

/-- Scan core of `readContentDisposition`: at each position try `name=` then
`filename=` extraction (each only while its variable is still falsy), and
otherwise stop at the line's CRLF; reaching the end of the buffer first is
the structural error thrown by the source.  Fuel-0 coincides with the
end-of-buffer row. -/
def readContentDispositionGo (params : Buffer) :
    Nat → Option String → Option String → Nat → Except String CDResult
  | 0, _, _, _ => .error "Something went wrong during the content disposition params retrieval"
  | fuel+1, name, filename, i =>
    if i < params.length then
      match (if jsFalsy name then extractParam (params.drop i) nameUTF8 else .ok none) with
      | .error e => .error e
      | .ok (some extractedName) =>
        readContentDispositionGo params fuel (some extractedName.data) filename
          (i + extractedName.offset + 1)
      | .ok none =>
        match (if jsFalsy filename then extractParam (params.drop i) filenameUTF8 else .ok none) with
        | .error e => .error e
        | .ok (some extractedFilename) =>
          readContentDispositionGo params fuel name (some extractedFilename.data)
            (i + extractedFilename.offset + 1)
        | .ok none =>
          if params.get? (i - 1) == some crByte && params.get? i == some lfByte then
            .ok { params := { name := name, filename := filename }, offset := i + 1 }
          else readContentDispositionGo params fuel name filename (i + 1)
    else .error "Something went wrong during the content disposition params retrieval"

/-- Model of the source's `readContentDisposition`: scan the header line
from just past the disposition prefix. -/
def readContentDisposition (params : Buffer) : Except String CDResult :=
  readContentDispositionGo params params.length none none
    (contentDispositionPrefixUTF8.length + 1)

/-- The mutable state of the header-block scan loop inside
`parseMultipartFormData`: the scan position and the captured variables. -/
structure HeaderScanState where
  startIdx : Nat
  name : Option String
  contentType : Option String
  filename : Option String
deriving DecidableEq

deriving instance DecidableEq for Except

/-- The header loop's do-while condition:
`(array[startIdx] !== 0x0d || array[startIdx+1] !== 0x0a) && startIdx < array.length`. -/
def headerGuard (array : Buffer) (startIdx : Nat) : Bool :=
  (!(array.get? startIdx == some crByte) || !(array.get? (startIdx + 1) == some lfByte))
    && decide (startIdx < array.length)

/-- The header-block scan loop of `parseMultipartFormData` (source lines
232-255): at each position, a Content-Disposition match (while `name` is
falsy) takes priority over a Content-Type match (while `contentType` is
falsy), and otherwise the scan advances a single byte; the loop body runs
once before the first guard check (do-while).  The fuel-0 row is
unreachable from `headerScan`'s fuel. -/
def headerLoop (array : Buffer) : Nat → HeaderScanState → Except String HeaderScanState
  | 0, s => .ok s
  | fuel+1, s =>
    let line := array.drop s.startIdx
    if jsFalsy s.name && arrayStartsWith line contentDispositionPrefixUTF8 then
      match readContentDisposition line with
      | .error e => .error e
      | .ok r =>
        let s1 : HeaderScanState :=
          { s with name := r.params.name, filename := r.params.filename,
                   startIdx := s.startIdx + r.offset }
        if headerGuard array s1.startIdx then headerLoop array fuel s1 else .ok s1
    else if jsFalsy s.contentType && arrayStartsWith line contentTypePrefixUTF8 then
      let lineEndIdx := getLineEndIdx array (s.startIdx + contentTypePrefixUTF8.length)
      let ct := decodeUTF8 ((array.drop (s.startIdx + contentTypePrefixUTF8.length + 1)).take
        (lineEndIdx - (s.startIdx + contentTypePrefixUTF8.length + 1)))
      let s1 : HeaderScanState := { s with contentType := some ct, startIdx := lineEndIdx + 2 }
      if headerGuard array s1.startIdx then headerLoop array fuel s1 else .ok s1
    else
      let s1 : HeaderScanState := { s with startIdx := s.startIdx + 1 }
      if headerGuard array s1.startIdx then headerLoop array fuel s1 else .ok s1

/-- The header-block scan of one part, started from scan position
`startIdx` with all captured variables fresh, with provably sufficient
fuel. -/
def headerScan (array : Buffer) (startIdx : Nat) : Except String HeaderScanState :=
  headerLoop array (array.length + 2)
    { startIdx := startIdx, name := none, contentType := none, filename := none }

/-- The preamble-skip do-while loop of `parseMultipartFormData` (source
lines 215-220): read successive CRLF lines from `startIdx`, stopping after
the first line that starts with the separator, or when the next position
reaches the end of the buffer.  Returns the position after the stopping
line's CRLF.  The fuel-0 row is unreachable from `preambleLoop`'s fuel. -/
def preambleLoopGo (array separatorUTF8 : Buffer) : Nat → Nat → Nat
  | 0, startIdx => startIdx
  | fuel+1, startIdx =>
    let lineEndIdx := getLineEndIdx array startIdx
    let line := (array.drop startIdx).take (lineEndIdx - startIdx)
    let next := lineEndIdx + 2
    if !arrayStartsWith line separatorUTF8 && decide (next < array.length) then
      preambleLoopGo array separatorUTF8 fuel next
    else next

/-- The preamble skip from offset 0, with provably sufficient fuel. -/
def preambleLoop (array separatorUTF8 : Buffer) : Nat :=
  preambleLoopGo array separatorUTF8 (array.length + 1) 0

/-- The body/boundary scan do-while loop of `parseMultipartFormData`
(source lines 267-269): advance line by line until the text at the new
position starts with the separator.  This loop has no end-of-buffer check
in the source, so it genuinely diverges (here: `none` for every fuel) when
no further separator-prefixed line exists. -/
def bodyScan (array separatorUTF8 : Buffer) : Nat → Nat → Option Nat
  | 0, _ => none
  | fuel+1, lineEndIdx =>
    let next := getLineEndIdx array lineEndIdx + 2
    if arrayStartsWith (array.drop next) separatorUTF8 then some next
    else bodyScan array separatorUTF8 fuel next

/-- The outer per-part while loop of `parseMultipartFormData` (source lines
224-284), fuelled: one unit of fuel per part, with the current fuel also
bounding the body scan.  `none` means the source's loop never returns
(divergence). -/
def partsLoop (array separatorUTF8 : Buffer) (procs : ContentProcessors) :
    Nat → Nat → Nat → ParseResult → Option (Except String ParseResult)
  | 0, _, _, _ => none
  | fuel+1, startIdx, lineEndIdx, result =>
    if startIdx < array.length then
      match headerScan array lineEndIdx with
      | .error e => some (.error e)
      | .ok s1 =>
        if jsFalsy s1.name then some (.error "The entry name is missing")
        else
          let name := s1.name.getD ""
          let contentType := s1.contentType.getD "text/plain"
          let startIdx2 := s1.startIdx + 1
          match bodyScan array separatorUTF8 fuel startIdx2 with
          | none => none
          | some lineEndIdx2 =>
            let bodyLine := (array.drop (startIdx2 + 1)).take (lineEndIdx2 - 2 - (startIdx2 + 1))
            match processContent procs contentType bodyLine s1.filename with
            | .error e => some (.error e)
            | .ok content =>
              let result1 := addContentToResult result name content
              let startIdx3 := lineEndIdx2
              let lineEndIdx3 := getLineEndIdx array startIdx3
              let line2 := (array.drop (startIdx3 + separatorUTF8.length)).take
                (lineEndIdx3 - (startIdx3 + separatorUTF8.length))
              if line2.get? 0 == some finalByte && line2.get? 1 == some finalByte then
                some (.ok result1)
              else partsLoop array separatorUTF8 procs fuel startIdx3 (lineEndIdx3 + 2) result1
    else some (.ok result)

/-- Model of the exported `parseMultipartFormData(inputArray, boundary,
contentProcessors)`: merge the registry over the built-ins, build the
separator bytes, skip the preamble, and run the per-part loop. -/
def parseMultipartFormData (fuel : Nat) (inputArray : Buffer) (boundary : String)
    (contentProcessors : ContentProcessors) : Option (Except String ParseResult) :=
  let merged := contentProcessorsWithDefaults contentProcessors
  let separatorUTF8 := encodeUTF8 ("--" ++ boundary)
  let startIdx := preambleLoop inputArray separatorUTF8
  partsLoop inputArray separatorUTF8 merged fuel startIdx startIdx []

/-- The per-part loop instrumented with the position where the run breaks
out on seeing the terminal `--` after a separator line: `some brk` on the
break exit (the start of the terminal separator line), `none` on the
exhaustion exit.  Apart from this extra component the computation is
byte-for-byte the one of `partsLoop`. -/
def partsLoopPos (array separatorUTF8 : Buffer) (procs : ContentProcessors) :
    Nat → Nat → Nat → ParseResult → Option (Except String (ParseResult × Option Nat))
  | 0, _, _, _ => none
  | fuel+1, startIdx, lineEndIdx, result =>
    if startIdx < array.length then
      match headerScan array lineEndIdx with
      | .error e => some (.error e)
      | .ok s1 =>
        if jsFalsy s1.name then some (.error "The entry name is missing")
        else
          let name := s1.name.getD ""
          let contentType := s1.contentType.getD "text/plain"
          let startIdx2 := s1.startIdx + 1
          match bodyScan array separatorUTF8 fuel startIdx2 with
          | none => none
          | some lineEndIdx2 =>
            let bodyLine := (array.drop (startIdx2 + 1)).take (lineEndIdx2 - 2 - (startIdx2 + 1))
            match processContent procs contentType bodyLine s1.filename with
            | .error e => some (.error e)
            | .ok content =>
              let result1 := addContentToResult result name content
              let startIdx3 := lineEndIdx2
              let lineEndIdx3 := getLineEndIdx array startIdx3
              let line2 := (array.drop (startIdx3 + separatorUTF8.length)).take
                (lineEndIdx3 - (startIdx3 + separatorUTF8.length))
              if line2.get? 0 == some finalByte && line2.get? 1 == some finalByte then
                some (.ok (result1, some startIdx3))
              else partsLoopPos array separatorUTF8 procs fuel startIdx3 (lineEndIdx3 + 2) result1
    else some (.ok (result, none))

/-- `parseMultipartFormData` instrumented with the break position of its
per-part loop, see `partsLoopPos`. -/
def parseMultipartFormDataPos (fuel : Nat) (inputArray : Buffer) (boundary : String)
    (contentProcessors : ContentProcessors) :
    Option (Except String (ParseResult × Option Nat)) :=
  let merged := contentProcessorsWithDefaults contentProcessors
  let separatorUTF8 := encodeUTF8 ("--" ++ boundary)
  let startIdx := preambleLoop inputArray separatorUTF8
  partsLoopPos inputArray separatorUTF8 merged fuel startIdx startIdx []

/-! ## Basic lemmas about the byte scanner -/

theorem arrayEq_iff (a b : Buffer) : arrayEq a b = true ↔ a = b := by
  simp [arrayEq]

theorem arrayStartsWith_iff (arr p : Buffer) :
    arrayStartsWith arr p = true ↔ arr.take p.length = p := by
  simp [arrayStartsWith, arrayEq]

theorem getLineEndIdxGo_le (array : Buffer) :
    ∀ fuel i, getLineEndIdxGo array fuel i ≤ array.length := by
  intro fuel
  induction fuel with
  | zero => intro i; simp [getLineEndIdxGo]
  | succ fuel ih =>
    intro i
    rw [getLineEndIdxGo]
    split
    · split
      · omega
      · exact ih (i + 1)
    · exact Nat.le_refl _

theorem getLineEndIdxGo_lower (array : Buffer) (o : Nat) (ho : o ≤ array.length) :
    ∀ fuel i, o < i → o ≤ getLineEndIdxGo array fuel i := by
  intro fuel
  induction fuel with
  | zero => intro i _; simpa [getLineEndIdxGo] using ho
  | succ fuel ih =>
    intro i hi
    rw [getLineEndIdxGo]
    split
    · split
      · omega
      · exact ih (i + 1) (by omega)
    · exact ho

theorem getLineEndIdxGo_of_ge (array : Buffer) (fuel i : Nat) (h : array.length ≤ i) :
    getLineEndIdxGo array fuel i = array.length := by
  cases fuel with
  | zero => rfl
  | succ fuel =>
    rw [getLineEndIdxGo, if_neg (by omega)]

theorem getLineEndIdx_le (array : Buffer) (o : Nat) :
    getLineEndIdx array o ≤ array.length :=
  getLineEndIdxGo_le array _ _

theorem getLineEndIdx_ge (array : Buffer) (o : Nat) (ho : o ≤ array.length) :
    o ≤ getLineEndIdx array o :=
  getLineEndIdxGo_lower array o ho _ _ (Nat.lt_succ_self o)

theorem getLineEndIdx_of_gt (array : Buffer) (o : Nat) (h : array.length ≤ o) :
    getLineEndIdx array o = array.length :=
  getLineEndIdxGo_of_ge array _ _ (by omega)

/-- The index returned by `getLineEndIdx` is the buffer's length (no line
end found) or points at an actual CR LF pair. -/
theorem getLineEndIdxGo_pair_or_end (array : Buffer) :
    ∀ fuel i, 1 ≤ i → getLineEndIdxGo array fuel i = array.length ∨
      (array.get? (getLineEndIdxGo array fuel i) = some crByte ∧
       array.get? (getLineEndIdxGo array fuel i + 1) = some lfByte) := by
  intro fuel
  induction fuel with
  | zero => intro i _; left; rfl
  | succ fuel ih =>
    intro i hi
    rw [getLineEndIdxGo]
    split
    · split
      · rename_i hpair
        right
        simp only [Bool.and_eq_true, beq_iff_eq] at hpair
        refine ⟨hpair.1, ?_⟩
        have h2 : i - 1 + 1 = i := by omega
        rw [h2]
        exact hpair.2
      · exact ih (i + 1) (by omega)
    · left; rfl

theorem getLineEndIdx_pair_or_end (array : Buffer) (o : Nat) :
    getLineEndIdx array o = array.length ∨
      (array.get? (getLineEndIdx array o) = some crByte ∧
       array.get? (getLineEndIdx array o + 1) = some lfByte) :=
  getLineEndIdxGo_pair_or_end array _ (o + 1) (by omega)

/-! ## The result aggregator (claim C6) -/

theorem objGet_append (xs ys : ContentProcessors) (key : String) :
    objGet (xs ++ ys) key =
      match objGet ys key with
      | some p => some p
      | none => objGet xs key := by
  induction xs with
  | nil =>
    cases h : objGet ys key <;> simp [objGet, h]
  | cons kv rest ih =>
    obtain ⟨k, v⟩ := kv
    rw [List.cons_append, objGet, ih]
    cases h : objGet ys key <;> simp [objGet, h]

/-- C5 (amended).  If a part's content type is neither bound in the
effective (merged) registry nor the name of an inherited
`Object.prototype` member, processor lookup falls back to the `default`
entry, and when the caller has not overridden `default`, the built-in
default processor leaves the raw body byte range unchanged in the entry's
`data` field.  For an inherited name the JS `in` test succeeds despite the
absent binding and no fallback happens, see `C5_counterexample`. -/
theorem C5_unregistered_type_uses_default_identity (contentProcessors : ContentProcessors)
    (contentType : String) (content : Buffer) (filename : Option String)
    (hNo : objHas (contentProcessorsWithDefaults contentProcessors) contentType = false)
    (hNotProto : contentType ∉ objectProtoNames)
    (hDef : objGet contentProcessors "default" = none) :
    processContent (contentProcessorsWithDefaults contentProcessors) contentType content filename =
      .ok { contentType := contentType, data := .bytes content, filename := filename } := by
  unfold processContent
  rw [hNo, Bool.false_or, decide_eq_false hNotProto]
  simp only [Bool.false_eq_true, if_false, contentProcessorsWithDefaults, objGet_append, hDef]
  rfl

/-- Counterexample to C5 as frozen: the content type `toString` has no
binding in the effective default registry, yet the lookup does not fall
back to `default`: the JS `in` test sees the inherited
`Object.prototype.toString`, the source invokes it as the processor, and
the part's data is the string "[object Object]" rather than the raw body
bytes. -/
theorem C5_counterexample :
    objHas (contentProcessorsWithDefaults []) "toString" = false ∧
    processContent (contentProcessorsWithDefaults []) "toString" (encodeUTF8 "hi") none =
      .ok { contentType := "toString", data := .str "[object Object]", filename := none } ∧
    Value.str "[object Object]" ≠ .bytes (encodeUTF8 "hi") :=
  ⟨by decide, rfl, fun hcontra => Value.noConfusion hcontra⟩

/-- Closed witness for C5 at a concrete input. -/
theorem C5_witness :
    objHas (contentProcessorsWithDefaults []) "application/octet-stream" = false ∧
    ("application/octet-stream" ∉ objectProtoNames) ∧
    processContent (contentProcessorsWithDefaults []) "application/octet-stream"
        [1, 2, 3] (some "f.bin") =
      .ok { contentType := "application/octet-stream", data := .bytes [1, 2, 3],
            filename := some "f.bin" } :=
  ⟨by decide, by decide, C5_unregistered_type_uses_default_identity [] "application/octet-stream"
    [1, 2, 3] (some "f.bin") (by decide) (by decide) rfl⟩

/-! ## Preamble scanning (claims C2 and C8) -/

/-- Position `i` starts a line of the buffer: it is offset 0 or sits
immediately after a CR LF pair. -/
def isLineStart (array : Buffer) (i : Nat) : Prop :=
  i = 0 ∨ (array.get? (i - 2) = some crByte ∧ array.get? (i - 1) = some lfByte ∧ 2 ≤ i)

theorem arrayStartsWith_take_false (array sep : Buffer) (s k : Nat)
    (hNo : ¬ sep <+: array.drop s) :
    arrayStartsWith ((array.drop s).take k) sep = false := by
  by_contra h
  rw [Bool.not_eq_false, arrayStartsWith_iff, List.take_take] at h
  apply hNo
  have hlen := congrArg List.length h
  simp only [List.length_take] at hlen
  have hmin : min sep.length k = sep.length := by omega
  rw [hmin] at h
  exact h ▸ List.take_prefix _ _

theorem preambleLoopGo_no_match (array sep : Buffer)
    (hNo : ∀ i, isLineStart array i → ¬ sep <+: array.drop i) :
    ∀ fuel s, isLineStart array s → array.length + 1 ≤ fuel + s →
      array.length ≤ preambleLoopGo array sep fuel s := by
  intro fuel
  induction fuel with
  | zero => intro s _ hinv; simpa [preambleLoopGo] using (by omega : array.length ≤ s)
  | succ fuel ih =>
    intro s hs hinv
    rw [preambleLoopGo]
    have hmatch : arrayStartsWith ((array.drop s).take (getLineEndIdx array s - s)) sep = false :=
      arrayStartsWith_take_false array sep s _ (hNo s hs)
    simp only [hmatch, Bool.not_false, Bool.true_and]
    split
    · rename_i hlt
      simp only [decide_eq_true_eq] at hlt
      rcases getLineEndIdx_pair_or_end array s with hend | ⟨hcr, hlf⟩
      · omega
      · apply ih
        · exact Or.inr ⟨by simpa using hcr, by simpa using hlf, by omega⟩
        · rcases Nat.lt_or_ge array.length s with hsgt | hsle
          · have := getLineEndIdx_of_gt array s (by omega)
            omega
          · have := getLineEndIdx_ge array s (by omega)
            omega
    · rename_i hge
      simp only [decide_eq_true_eq] at hge
      omega

/-- C2 (amended).  If no line of the buffer starts with the boundary
delimiter, `parseMultipartFormData` does not raise a structural error:
the preamble scan runs off the end of the buffer and the call returns the
empty `ParseResult`. -/
theorem C2_no_boundary_line_returns_empty (array : Buffer) (boundary : String)
    (procs : ContentProcessors) (fuel : Nat) (hFuel : 1 ≤ fuel)
    (hNo : ∀ i, isLineStart array i → ¬ encodeUTF8 ("--" ++ boundary) <+: array.drop i) :
    parseMultipartFormData fuel array boundary procs = some (.ok []) := by
  unfold parseMultipartFormData preambleLoop
  have hExit := preambleLoopGo_no_match array (encodeUTF8 ("--" ++ boundary)) hNo
    (array.length + 1) 0 (Or.inl rfl) (by omega)
  obtain ⟨f, rfl⟩ : ∃ f, fuel = f + 1 := ⟨fuel - 1, by omega⟩
  rw [partsLoop, if_neg (by omega)]

/-- C2 (counterexample).  A buffer with no boundary-delimiter line makes
`parseMultipartFormData` return a `ParseResult` (the empty one) instead of
failing with a structural "boundary not found" error: no such error exists
in the code. -/
theorem C2_counterexample :
    (∀ i, isLineStart (encodeUTF8 "hello\r\nworld") i →
        ¬ encodeUTF8 ("--" ++ "B") <+: (encodeUTF8 "hello\r\nworld").drop i) ∧
    parseMultipartFormData 1 (encodeUTF8 "hello\r\nworld") "B" [] = some (.ok []) := by
  constructor
  · intro i hi
    rcases hi with rfl | ⟨hcr, hlf, h2⟩
    · decide
    · have hb : i < 14 := by
        by_contra hge
        have hnone : (encodeUTF8 "hello\r\nworld").get? (i - 2) = none := by
          apply List.get?_eq_none.mpr
          have : (encodeUTF8 "hello\r\nworld").length = 12 := by decide
          omega
        rw [hnone] at hcr
        cases hcr
      interval_cases i <;> revert hcr hlf <;> decide
  · rfl

/-- Closed witness for the amended C2. -/
theorem C2_witness :
    parseMultipartFormData 3 (encodeUTF8 "ok") "Q" [] = some (.ok []) := by
  apply C2_no_boundary_line_returns_empty (encodeUTF8 "ok") "Q" [] 3 (by omega)
  intro i hi
  rcases hi with rfl | ⟨hcr, hlf, h2⟩
  · decide
  · have hb : i < 4 := by
      by_contra hge
      have hnone : (encodeUTF8 "ok").get? (i - 2) = none := by
        apply List.get?_eq_none.mpr
        have : (encodeUTF8 "ok").length = 2 := by decide
        omega
      rw [hnone] at hcr
      cases hcr
    interval_cases i <;> revert hcr hlf <;> decide

/-! ## Missing-name failures (claims C7, C3, C10) -/

/-- C7.  A part whose header block ends without a captured (nonempty) name
makes the whole parse fail with the missing-field error; the conclusion is
independent of the accumulated `result`, so no partial `ParseResult` is
exposed. -/
theorem C7_missing_name_fails_whole_parse (array separatorUTF8 : Buffer)
    (procs : ContentProcessors) (fuel startIdx lineEndIdx : Nat) (result : ParseResult)
    (s1 : HeaderScanState)
    (hIn : startIdx < array.length)
    (hScan : headerScan array lineEndIdx = .ok s1)
    (hName : jsFalsy s1.name = true)
    (hFuel : 1 ≤ fuel) :
    partsLoop array separatorUTF8 procs fuel startIdx lineEndIdx result =
      some (.error "The entry name is missing") := by
  obtain ⟨f, rfl⟩ : ∃ f, fuel = f + 1 := ⟨fuel - 1, by omega⟩
  rw [partsLoop, if_pos hIn, hScan]
  simp [hName]

/-- Closed witness for C7: a part whose only header line is unrecognized,
so no name is captured by the time the header block's terminating CRLF is
reached. -/
theorem C7_witness :
    partsLoop (encodeUTF8 "--B\r\nXY\r\n\r\nz") (encodeUTF8 "--B")
      (contentProcessorsWithDefaults []) 2 5 5 [] =
      some (.error "The entry name is missing") :=
  C7_missing_name_fails_whole_parse (encodeUTF8 "--B\r\nXY\r\n\r\nz") (encodeUTF8 "--B")
    (contentProcessorsWithDefaults []) 2 5 5 []
    { startIdx := 7, name := none, contentType := none, filename := none }
    (by decide) rfl (by decide) (by decide)

/-! ## Divergence of the body/boundary scan (claims C1 and C3) -/

theorem encodeUTF8_dashdash (boundary : String) :
    encodeUTF8 ("--" ++ boundary) = 45 :: 45 :: encodeUTF8 boundary := by
  unfold encodeUTF8
  have h : ("--" ++ boundary).data = '-' :: '-' :: boundary.data := by
    cases boundary with
    | mk data => rfl
  rw [h]
  rfl

/-- Once the body/boundary scan position is at or past the end of the
buffer, the scan never finds a nonempty separator again: it diverges (the
source loop has no end-of-buffer check). -/
theorem bodyScan_end_diverges (array sep : Buffer) (hsep : sep ≠ []) :
    ∀ fuel p, array.length ≤ p → bodyScan array sep fuel p = none := by
  intro fuel
  induction fuel with
  | zero => intro p _; rfl
  | succ fuel ih =>
    intro p hp
    rw [bodyScan]
    have hgle : getLineEndIdx array p = array.length := getLineEndIdx_of_gt array p hp
    rw [hgle]
    have hdrop : array.drop (array.length + 2) = [] := by
      apply List.drop_eq_nil_of_le
      omega
    rw [hdrop]
    have hsw : arrayStartsWith [] sep = false := by
      cases sep with
      | nil => exact absurd rfl hsep
      | cons a as => simp [arrayStartsWith, arrayEq]
    rw [hsw]
    simpa using ih (array.length + 2) (by omega)

/-- C3 (amended).  When a part's header-block scan runs past the end of the
buffer without finding the blank-line terminator, the source raises no
structural error: if no (nonempty) name was captured, the parse fails with
the missing-field error, and if a name was captured, the parse never
terminates (the body scan diverges past the end of the buffer). -/
theorem C3_header_scan_past_end (array : Buffer) (boundary : String)
    (procs : ContentProcessors) (fuel startIdx lineEndIdx : Nat) (result : ParseResult)
    (s1 : HeaderScanState)
    (hIn : startIdx < array.length)
    (hScan : headerScan array lineEndIdx = .ok s1)
    (hPast : array.length ≤ s1.startIdx)
    (hFuel : 1 ≤ fuel) :
    partsLoop array (encodeUTF8 ("--" ++ boundary)) procs fuel startIdx lineEndIdx result =
      (if jsFalsy s1.name then some (.error "The entry name is missing") else none) := by
  obtain ⟨f, rfl⟩ : ∃ f, fuel = f + 1 := ⟨fuel - 1, by omega⟩
  rw [partsLoop, if_pos hIn, hScan]
  by_cases hName : jsFalsy s1.name
  · simp [hName]
  · rw [if_neg hName]
    have hdiv : bodyScan array (encodeUTF8 ("--" ++ boundary)) f (s1.startIdx + 1) = none := by
      apply bodyScan_end_diverges
      · rw [encodeUTF8_dashdash]; simp
      · omega
    simp only [Bool.not_eq_true] at hName
    simp [hName, hdiv]

/-- C3 (counterexample).  A buffer whose single part's header block hits
the end of the buffer with no blank-line terminator: the scan stops at
position 6 = the buffer's length, and the parse fails with the
missing-field error, not a structural error. -/
theorem C3_counterexample :
    headerScan (encodeUTF8 "--B\r\nX") 5 =
      .ok { startIdx := 6, name := none, contentType := none, filename := none } ∧
    (encodeUTF8 "--B\r\nX").length ≤ 6 ∧
    parseMultipartFormData 2 (encodeUTF8 "--B\r\nX") "B" [] =
      some (.error "The entry name is missing") :=
  ⟨rfl, by decide, rfl⟩

/-- Closed witness for the amended C3 (the missing-name branch of its
conclusion, at the counterexample's buffer). -/
theorem C3_witness :
    partsLoop (encodeUTF8 "--B\r\nX") (encodeUTF8 ("--" ++ "B"))
      (contentProcessorsWithDefaults []) 2 5 5 [] =
      some (.error "The entry name is missing") := by
  have h := C3_header_scan_past_end (encodeUTF8 "--B\r\nX") "B"
    (contentProcessorsWithDefaults []) 2 5 5 []
    { startIdx := 6, name := none, contentType := none, filename := none }
    (by decide) rfl (by decide) (by decide)
  simpa using h

/-- The C1 failing input: a well-formed part header (name captured) whose
body is never followed by a boundary-delimiter line. -/
def c1FailingInput : Buffer :=
  encodeUTF8 "--B\r\nContent-Disposition: form-data; name=\"a\"\r\n\r\nhi"

/-- C1 (the code bug).  On `c1FailingInput`, `parseMultipartFormData`
never returns for any fuel: the body/boundary scan reaches the fixed point
`array.length + 2` and loops forever, contradicting the claim (and the
specification's promise of a structural error when boundary scanning runs
past the end of the buffer). -/
theorem C1_parse_diverges :
    ∀ fuel, parseMultipartFormData fuel c1FailingInput "B" [] = none := by
  intro fuel
  have hrep : parseMultipartFormData fuel c1FailingInput "B" [] =
      partsLoop c1FailingInput (encodeUTF8 ("--" ++ "B")) (contentProcessorsWithDefaults [])
        fuel (preambleLoop c1FailingInput (encodeUTF8 ("--" ++ "B")))
        (preambleLoop c1FailingInput (encodeUTF8 ("--" ++ "B"))) [] := rfl
  rw [hrep, show (encodeUTF8 ("--" ++ "B")) = encodeUTF8 "--B" from rfl,
    show preambleLoop c1FailingInput (encodeUTF8 "--B") = 5 by decide]
  cases fuel with
  | zero => rfl
  | succ f =>
    rw [partsLoop, if_pos (by decide : 5 < c1FailingInput.length)]
    rw [show headerScan c1FailingInput 5 =
      .ok { startIdx := 47, name := some "a", contentType := none, filename := none } by decide]
    have hbs : bodyScan c1FailingInput (encodeUTF8 "--B") f 48 = none := by
      cases f with
      | zero => rfl
      | succ g =>
        rw [bodyScan]
        rw [show getLineEndIdx c1FailingInput 48 = 51 from rfl]
        rw [if_neg (by decide)]
        exact bodyScan_end_diverges c1FailingInput (encodeUTF8 "--B") (by decide) g
          (51 + 2) (by decide)
    simp [jsFalsy, hbs]

/-! ## Content-Disposition parameter extraction (claim C4) -/

theorem extractParamGo_ok_iff (params : Buffer) (endI : Nat) (r : ExtractedParam) :
    ∀ fuel i, params.length ≤ i + fuel →
      (extractParamGo params fuel endI i = .ok r ↔
        ∃ q, i ≤ q ∧ q < params.length ∧ params.get? q = some quoteUTF8 ∧
          (∀ j, i ≤ j → j < q → params.get? j ≠ some quoteUTF8) ∧
          r = ⟨decodeUTF8 ((params.drop (endI + 2)).take (q - (endI + 2))), q + 1⟩) := by
  intro fuel
  induction fuel with
  | zero =>
    intro i hinv
    constructor
    · intro h; exact absurd h (by simp [extractParamGo])
    · rintro ⟨q, hq1, hq2, -⟩; omega
  | succ fuel ih =>
    intro i hinv
    rw [extractParamGo]
    by_cases hi : i < params.length
    · rw [if_pos hi]
      by_cases hq : params.get? i = some quoteUTF8
      · rw [if_pos (by simpa using hq)]
        constructor
        · intro h
          refine ⟨i, Nat.le_refl i, hi, hq, fun j hj1 hj2 => absurd hj2 (by omega), ?_⟩
          cases h
          rfl
        · rintro ⟨q, hq1, hq2, hq3, hq4, rfl⟩
          have : q = i := by
            by_contra hne
            exact hq4 i (Nat.le_refl i) (by omega) hq
          subst this
          rfl
      · rw [if_neg (by simpa using hq)]
        rw [ih (i + 1) (by omega)]
        constructor
        · rintro ⟨q, hq1, hq2, hq3, hq4, hr⟩
          exact ⟨q, by omega, hq2, hq3,
            fun j hj1 hj2 => by
              rcases Nat.eq_or_lt_of_le hj1 with rfl | hj1'
              · exact hq
              · exact hq4 j hj1' hj2, hr⟩
        · rintro ⟨q, hq1, hq2, hq3, hq4, hr⟩
          have hqi : i ≠ q := fun h => hq (h ▸ hq3)
          exact ⟨q, by omega, hq2, hq3, fun j hj1 hj2 => hq4 j (by omega) hj2, hr⟩
    · rw [if_neg hi]
      constructor
      · intro h; exact absurd h (by simp)
      · rintro ⟨q, hq1, hq2, -⟩; omega

/-- C4 (amended).  Full characterization of `extractParam`: a parameter is
captured exactly when the key is immediately followed by `=` (the byte
after `=` is skipped without being checked, so no opening quote is
required), and the captured value is the UTF-8 decoding of the bytes from
two past the `=` up to (not including) the first following `"` byte, with
the offset just past that quote. -/
theorem C4_extractParam_characterization (params paramKey : Buffer) (r : ExtractedParam) :
    extractParam params paramKey = .ok (some r) ↔
      (params.get? paramKey.length = some equalUTF8 ∧
       params.take paramKey.length = paramKey ∧
       ∃ q, paramKey.length + 2 ≤ q ∧ q < params.length ∧
         params.get? q = some quoteUTF8 ∧
         (∀ j, paramKey.length + 2 ≤ j → j < q → params.get? j ≠ some quoteUTF8) ∧
         r = ⟨decodeUTF8 ((params.drop (paramKey.length + 2)).take (q - (paramKey.length + 2))),
              q + 1⟩) := by
  unfold extractParam
  by_cases h1 : params.get? paramKey.length = some equalUTF8
  all_goals have h1g := h1
  all_goals rw [List.get?_eq_getElem?] at h1g
  · by_cases h2 : params.take paramKey.length = paramKey
    · rw [if_neg (by simp [h1g, arrayEq, h2])]
      have hGo := extractParamGo_ok_iff params paramKey.length r params.length
        (paramKey.length + 2) (by omega)
      constructor
      · intro h
        rcases hmap : extractParamGo params params.length paramKey.length (paramKey.length + 2)
          with e | v
        · rw [hmap] at h; exact absurd h (by simp [Except.map])
        · rw [hmap] at h
          simp only [Except.map, Except.ok.injEq, Option.some.injEq] at h
          subst h
          exact ⟨h1, h2, (hGo.mp hmap)⟩
      · rintro ⟨-, -, hex⟩
        rw [hGo.mpr hex]
        rfl
    · rw [if_pos (by simp [arrayEq, h2])]
      constructor
      · intro h; exact absurd h (by simp)
      · rintro ⟨-, h2', -⟩; exact absurd h2' h2
  · rw [if_pos (by simp [h1g])]
    constructor
    · intro h; exact absurd h (by simp)
    · rintro ⟨h1', -, -⟩; exact absurd h1' h1

/-- C4 (counterexample).  `extractParam` captures a value although the byte
immediately after `=` is `X` (0x58), not the quote the claim requires: on
`name=Xab"t` it returns the value `ab` (the bytes between positions 6 and
8) with offset 9. -/
theorem C4_counterexample :
    extractParam (encodeUTF8 "name=Xab\"t") nameUTF8 = .ok (some ⟨"ab", 9⟩) ∧
    (encodeUTF8 "name=Xab\"t").get? (nameUTF8.length + 1) = some 88 ∧ (88 : Nat) ≠ quoteUTF8 :=
  ⟨rfl, rfl, by decide⟩

/-! ## Empty quoted name parameters (claim C10) -/

theorem addContentToResult_keys (name : String) (e : Entry) (k : String) :
    ∀ r : ParseResult, k ∈ (addContentToResult r name e).map Prod.fst →
      k ∈ r.map Prod.fst ∨ k = name := by
  intro r
  induction r with
  | nil =>
    intro hk
    by_cases hp : name ∈ objectProtoNames
    · simp only [addContentToResult, if_pos hp, List.map_cons, List.map_nil,
        List.mem_singleton] at hk
      exact Or.inr hk
    · simp only [addContentToResult, if_neg hp, List.map_cons, List.map_nil,
        List.mem_singleton] at hk
      exact Or.inr hk
  | cons kv rest ih =>
    obtain ⟨k1, v⟩ := kv
    intro hk
    by_cases h : (k1 == name) = true
    · rcases v with e1 | es | ⟨m, es⟩ <;>
        · simp only [addContentToResult, h, if_true] at hk
          simp only [List.map_cons, List.mem_cons] at hk ⊢
          tauto
    · rw [Bool.not_eq_true] at h
      simp only [addContentToResult, h, Bool.false_eq_true, if_false, List.map_cons,
        List.mem_cons] at hk ⊢
      rcases hk with hk | hk
      · exact Or.inl (Or.inl hk)
      · rcases ih hk with h1 | h1
        · exact Or.inl (Or.inr h1)
        · exact Or.inr h1

/-- C10.  An empty quoted `name=""` parameter is captured as the empty
string, which is falsy in JS exactly like an absent name: the parse fails
with the very same missing-name error, and (second conjunct) an empty
field name can never appear as a key of a `ParseResult` returned by the
part loop. -/
theorem C10_empty_name_treated_as_missing :
    (∀ (array separatorUTF8 : Buffer) (procs : ContentProcessors)
        (fuel startIdx lineEndIdx : Nat) (result : ParseResult) (s1 : HeaderScanState),
        startIdx < array.length →
        headerScan array lineEndIdx = .ok s1 →
        s1.name = some "" →
        1 ≤ fuel →
        partsLoop array separatorUTF8 procs fuel startIdx lineEndIdx result =
          some (.error "The entry name is missing")) ∧
    (∀ (array separatorUTF8 : Buffer) (procs : ContentProcessors)
        (fuel startIdx lineEndIdx : Nat) (result res : ParseResult),
        partsLoop array separatorUTF8 procs fuel startIdx lineEndIdx result = some (.ok res) →
        "" ∉ result.map Prod.fst → "" ∉ res.map Prod.fst) := by
  constructor
  · intro array separatorUTF8 procs fuel startIdx lineEndIdx result s1 hIn hScan hName hFuel
    obtain ⟨f, rfl⟩ : ∃ f, fuel = f + 1 := ⟨fuel - 1, by omega⟩
    rw [partsLoop, if_pos hIn, hScan]
    simp [hName, jsFalsy]
  · intro array separatorUTF8 procs fuel
    induction fuel with
    | zero => intro startIdx lineEndIdx result res hRun; exact absurd hRun (by simp [partsLoop])
    | succ f ih =>
      intro startIdx lineEndIdx result res hRun hres
      rw [partsLoop] at hRun
      by_cases hIn : startIdx < array.length
      · rw [if_pos hIn] at hRun
        cases hhs : headerScan array lineEndIdx with
        | error e => rw [hhs] at hRun; exact absurd hRun (by simp)
        | ok s1 =>
          rw [hhs] at hRun
          dsimp only at hRun
          by_cases hName : jsFalsy s1.name = true
          · rw [if_pos hName] at hRun; exact absurd hRun (by simp)
          · rw [Bool.not_eq_true] at hName
            rw [hName] at hRun
            simp only [Bool.false_eq_true, if_false] at hRun
            have hne : s1.name.getD "" ≠ "" := by
              cases hs : s1.name with
              | none => rw [hs] at hName; exact absurd hName (by simp [jsFalsy])
              | some n =>
                rw [hs] at hName
                simp only [jsFalsy, beq_eq_false_iff_ne] at hName
                simpa using hName
            cases hbs : bodyScan array separatorUTF8 f (s1.startIdx + 1) with
            | none => rw [hbs] at hRun; exact absurd hRun (by simp)
            | some le2 =>
              rw [hbs] at hRun
              dsimp only at hRun
              cases hpc : processContent procs (s1.contentType.getD "text/plain")
                  ((array.drop (s1.startIdx + 1 + 1)).take (le2 - 2 - (s1.startIdx + 1 + 1)))
                  s1.filename with
              | error e => rw [hpc] at hRun; exact absurd hRun (by simp)
              | ok content =>
                rw [hpc] at hRun
                dsimp only at hRun
                by_cases hfin : ((array.drop (le2 + separatorUTF8.length)).take
                    (getLineEndIdx array le2 - (le2 + separatorUTF8.length))).get? 0 =
                      some finalByte ∧
                    ((array.drop (le2 + separatorUTF8.length)).take
                    (getLineEndIdx array le2 - (le2 + separatorUTF8.length))).get? 1 =
                      some finalByte
                · rw [if_pos (by simpa using hfin)] at hRun
                  have hres1 : res = addContentToResult result (s1.name.getD "") content := by
                    simpa using hRun.symm
                  subst hres1
                  intro hmem
                  rcases addContentToResult_keys _ _ _ _ hmem with h1 | h1
                  · exact hres h1
                  · exact hne h1.symm
                · rw [if_neg (by simpa using hfin)] at hRun
                  refine ih _ _ _ _ hRun ?_
                  intro hmem
                  rcases addContentToResult_keys _ _ _ _ hmem with h1 | h1
                  · exact hres h1
                  · exact hne h1.symm
      · rw [if_neg hIn] at hRun
        have : result = res := by simpa using hRun
        subst this
        exact hres

/-- Closed witness for C10: a part carrying `name=""` is rejected with the
missing-name error. -/
theorem C10_witness :
    partsLoop (encodeUTF8 "--B\r\nContent-Disposition: form-data; name=\"\"\r\n\r\nhi\r\n--B--")
      (encodeUTF8 "--B") (contentProcessorsWithDefaults []) 2 5 5 [] =
      some (.error "The entry name is missing") := by
  apply C10_empty_name_treated_as_missing.1 _ _ _ _ _ _ _
    { startIdx := 46, name := some "", contentType := none, filename := none }
    (by decide) (by decide) rfl (by decide)

/-! ## Position-shift and fuel-irrelevance lemmas for the scanner (claim C8) -/

theorem getLineEndIdxGo_fuel_irrel (array : Buffer) :
    ∀ f1 f2 i, array.length ≤ i + f1 → array.length ≤ i + f2 →
      getLineEndIdxGo array f1 i = getLineEndIdxGo array f2 i := by
  intro f1
  induction f1 with
  | zero =>
    intro f2 i h1 h2
    rw [getLineEndIdxGo_of_ge array 0 i (by omega), getLineEndIdxGo_of_ge array f2 i (by omega)]
  | succ f1 ih =>
    intro f2 i h1 h2
    by_cases hi : i < array.length
    · cases f2 with
      | zero => omega
      | succ f2 =>
        rw [getLineEndIdxGo, getLineEndIdxGo, if_pos hi, if_pos hi]
        by_cases hp : (array.get? (i - 1) == some crByte && array.get? i == some lfByte) = true
        · rw [if_pos hp, if_pos hp]
        · rw [if_neg hp, if_neg hp]
          exact ih f2 (i + 1) (by omega) (by omega)
    · rw [getLineEndIdxGo_of_ge array _ i (by omega), getLineEndIdxGo_of_ge array f2 i (by omega)]

theorem getLineEndIdxGo_shift (pre rest : Buffer) :
    ∀ fuel i, 1 ≤ i →
      getLineEndIdxGo (pre ++ rest) fuel (pre.length + i) =
        pre.length + getLineEndIdxGo rest fuel i := by
  intro fuel
  induction fuel with
  | zero => intro i _; simp [getLineEndIdxGo]
  | succ fuel ih =>
    intro i hi
    rw [getLineEndIdxGo, getLineEndIdxGo]
    by_cases hlt : i < rest.length
    · rw [if_pos (by simp; omega), if_pos hlt]
      have hg1 : (pre ++ rest).get? (pre.length + i - 1) = rest.get? (i - 1) := by
        rw [show pre.length + i - 1 = pre.length + (i - 1) from by omega,
          List.get?_append_right (by omega)]
        congr 1
        omega
      have hg2 : (pre ++ rest).get? (pre.length + i) = rest.get? i := by
        rw [List.get?_append_right (by omega)]
        congr 1
        omega
      rw [hg1, hg2]
      by_cases hp : (rest.get? (i - 1) == some crByte && rest.get? i == some lfByte) = true
      · rw [if_pos hp, if_pos hp]
        omega
      · rw [if_neg hp, if_neg hp,
          show pre.length + i + 1 = pre.length + (i + 1) from by omega]
        exact ih (i + 1) (by omega)
    · rw [if_neg (by simp; omega), if_neg hlt]
      simp

theorem getLineEndIdx_shift (pre rest : Buffer) (o : Nat) :
    getLineEndIdx (pre ++ rest) (pre.length + o) = pre.length + getLineEndIdx rest o := by
  unfold getLineEndIdx
  rw [show pre.length + o + 1 = pre.length + (o + 1) from by omega,
    getLineEndIdxGo_shift pre rest _ (o + 1) (by omega)]
  congr 1
  apply getLineEndIdxGo_fuel_irrel <;> simp <;> omega

theorem preambleLoopGo_shift (pre rest sep : Buffer) :
    ∀ fuel s, preambleLoopGo (pre ++ rest) sep fuel (pre.length + s) =
      pre.length + preambleLoopGo rest sep fuel s := by
  intro fuel
  induction fuel with
  | zero => intro s; rfl
  | succ fuel ih =>
    intro s
    rw [preambleLoopGo, preambleLoopGo]
    rw [getLineEndIdx_shift pre rest s, List.drop_append,
      show pre.length + getLineEndIdx rest s - (pre.length + s) = getLineEndIdx rest s - s
        from by omega]
    have hdec : decide (pre.length + getLineEndIdx rest s + 2 < (pre ++ rest).length) =
        decide (getLineEndIdx rest s + 2 < rest.length) := by
      apply decide_eq_decide.mpr
      simp
      omega
    rw [hdec]
    by_cases hc : (!arrayStartsWith ((rest.drop s).take (getLineEndIdx rest s - s)) sep &&
        decide (getLineEndIdx rest s + 2 < rest.length)) = true
    · rw [if_pos hc, if_pos hc,
        show pre.length + getLineEndIdx rest s + 2 = pre.length + (getLineEndIdx rest s + 2)
          from by omega]
      exact ih (getLineEndIdx rest s + 2)
    · rw [if_neg hc, if_neg hc]
      omega

theorem preambleLoopGo_fuel_irrel (array sep : Buffer) :
    ∀ f1 f2 s, 1 ≤ f1 → array.length + 1 ≤ f1 + s → 1 ≤ f2 → array.length + 1 ≤ f2 + s →
      preambleLoopGo array sep f1 s = preambleLoopGo array sep f2 s := by
  intro f1
  induction f1 with
  | zero => intro f2 s h1 _ _ _; omega
  | succ f1 ih =>
    intro f2 s _ h1 hf2 h2
    obtain ⟨g2, rfl⟩ : ∃ g2, f2 = g2 + 1 := ⟨f2 - 1, by omega⟩
    rw [preambleLoopGo, preambleLoopGo]
    by_cases hc : (!arrayStartsWith ((array.drop s).take (getLineEndIdx array s - s)) sep &&
        decide (getLineEndIdx array s + 2 < array.length)) = true
    · rw [if_pos hc, if_pos hc]
      have hlt : getLineEndIdx array s + 2 < array.length := by
        rw [Bool.and_eq_true] at hc
        exact of_decide_eq_true hc.2
      have hs_le : s ≤ array.length := by
        by_contra hgt
        have := getLineEndIdx_of_gt array s (by omega)
        omega
      have hge := getLineEndIdx_ge array s hs_le
      exact ih g2 (getLineEndIdx array s + 2) (by omega) (by omega) (by omega) (by omega)
    · rw [if_neg hc, if_neg hc]

/-- Whether a buffer contains a CR LF pair anywhere. -/
def hasCRLFPair : Buffer → Bool
  | x :: y :: t => (x == crByte && y == lfByte) || hasCRLFPair (y :: t)
  | _ => false

theorem hasCRLFPair_spec : ∀ b : Buffer, hasCRLFPair b = false →
    ∀ j, 1 ≤ j → ¬(b.get? (j - 1) = some crByte ∧ b.get? j = some lfByte) := by
  intro b
  induction b with
  | nil => rintro - j hj ⟨h1, -⟩; simp at h1
  | cons x t ih =>
    cases t with
    | nil =>
      rintro - j hj ⟨-, h2⟩
      rw [show ([x] : Buffer).get? j = none from by
        apply List.get?_eq_none.mpr; simp; omega] at h2
      cases h2
    | cons y t2 =>
      intro h j hj hpair
      rw [hasCRLFPair] at h
      rw [Bool.or_eq_false_iff] at h
      obtain ⟨h1, h2⟩ := h
      obtain ⟨ha, hb⟩ := hpair
      match j with
      | 1 =>
        simp only [List.get?] at ha hb
        rw [Bool.and_eq_false_iff] at h1
        rcases h1 with h1 | h1 <;> simp [beq_iff_eq] at h1 <;> simp_all
      | (j' + 2) =>
        apply ih h2 (j' + 1) (by omega)
        constructor
        · simpa using ha
        · simpa using hb

theorem getLineEndIdxGo_eq_of_first (A : Buffer) (q : Nat)
    (hq1 : A.get? q = some crByte) (hq2 : A.get? (q + 1) = some lfByte)
    (hqlt : q + 1 < A.length) :
    ∀ fuel i, 1 ≤ i → i ≤ q + 1 → A.length ≤ i + fuel →
      (∀ j, i ≤ j → j ≤ q → ¬(A.get? (j - 1) = some crByte ∧ A.get? j = some lfByte)) →
      getLineEndIdxGo A fuel i = q := by
  intro fuel
  induction fuel with
  | zero => intro i h1 h2 h3 _; omega
  | succ fuel ih =>
    intro i h1 h2 h3 hnp
    rw [getLineEndIdxGo, if_pos (by omega)]
    by_cases hieq : i = q + 1
    · subst hieq
      rw [if_pos (by
        simp only [Bool.and_eq_true, beq_iff_eq]
        refine ⟨?_, hq2⟩
        rw [show q + 1 - 1 = q from by omega]
        exact hq1)]
      omega
    · rw [if_neg (by
        have hni := hnp i (Nat.le_refl i) (by omega)
        simp only [Bool.and_eq_true, beq_iff_eq]
        tauto)]
      exact ih (i + 1) (by omega) (by omega) (by omega)
        (fun j hj1 hj2 => hnp j (by omega) hj2)

theorem getLineEndIdx_chunk (chunk t : Buffer) (h : hasCRLFPair chunk = false) :
    getLineEndIdx (chunk ++ crByte :: lfByte :: t) 0 = chunk.length := by
  unfold getLineEndIdx
  refine getLineEndIdxGo_eq_of_first _ chunk.length ?_ ?_
    (by simp only [List.length_append, List.length_cons]; omega) _ (0 + 1) (by omega)
    (by omega) (by omega) ?_
  · rw [List.get?_append_right (Nat.le_refl _)]
    simp
  · rw [List.get?_append_right (by omega)]
    rw [show chunk.length + 1 - chunk.length = 1 from by omega]
    rfl
  · intro j hj1 hj2 ⟨ha, hb⟩
    by_cases hjeq : j = chunk.length
    · subst hjeq
      rw [List.get?_append_right (Nat.le_refl _)] at hb
      simp only [Nat.sub_self] at hb
      simp [crByte, lfByte] at hb
    · have hjlt : j < chunk.length := by omega
      apply hasCRLFPair_spec chunk h j hj1
      constructor
      · rw [List.get?_append (by omega)] at ha
        exact ha
      · rw [List.get?_append hjlt] at hb
        exact hb

/-- A valid preamble for C8: a concatenation of CRLF-terminated chunks,
each free of internal CR LF pairs and not starting with the separator. -/
inductive ValidPreamble (sep : Buffer) : Buffer → Prop where
  | nil : ValidPreamble sep []
  | cons (chunk rest : Buffer) (hnp : hasCRLFPair chunk = false)
      (hns : arrayStartsWith chunk sep = false) (hrest : ValidPreamble sep rest) :
      ValidPreamble sep (chunk ++ crByte :: lfByte :: rest)

theorem preambleLoopGo_consume (sep : Buffer) :
    ∀ pre, ValidPreamble sep pre → ∀ payload, payload ≠ [] →
      ∀ fuel, pre.length + payload.length + 1 ≤ fuel →
        preambleLoopGo (pre ++ payload) sep fuel 0 =
          pre.length + preambleLoop payload sep := by
  intro pre hvp
  induction hvp with
  | nil =>
    intro payload hpl fuel hf
    simp only [List.nil_append, List.length_nil, Nat.zero_add] at hf ⊢
    unfold preambleLoop
    apply preambleLoopGo_fuel_irrel <;> omega
  | cons chunk rest hnp hns hvp ih =>
    intro payload hpl fuel hf
    have hpl1 : 1 ≤ payload.length := by
      cases payload with
      | nil => exact absurd rfl hpl
      | cons a t => simp
    have hlenpre : (chunk ++ crByte :: lfByte :: rest).length =
        chunk.length + 2 + rest.length := by simp; omega
    rw [hlenpre] at hf
    obtain ⟨f, rfl⟩ : ∃ f, fuel = f + 1 := ⟨fuel - 1, by omega⟩
    have hassoc : (chunk ++ crByte :: lfByte :: rest) ++ payload =
        chunk ++ crByte :: lfByte :: (rest ++ payload) := by simp
    rw [hassoc, preambleLoopGo, getLineEndIdx_chunk chunk (rest ++ payload) hnp,
      List.drop_zero, Nat.sub_zero, List.take_left, hns]
    have hlenA : (chunk ++ crByte :: lfByte :: (rest ++ payload)).length =
        chunk.length + 2 + rest.length + payload.length := by simp; omega
    rw [if_pos (by
      rw [hlenA]
      simp only [Bool.not_false, Bool.true_and, decide_eq_true_eq]
      omega)]
    have hsplit : chunk ++ crByte :: lfByte :: (rest ++ payload) =
        (chunk ++ [crByte, lfByte]) ++ (rest ++ payload) := by simp
    rw [hsplit,
      show chunk.length + 2 = (chunk ++ [crByte, lfByte]).length + 0 from by simp,
      preambleLoopGo_shift, ih payload hpl f (by omega)]
    simp
    omega

theorem readContentDispositionGo_offset_pos (params : Buffer) :
    ∀ fuel name filename i r,
      readContentDispositionGo params fuel name filename i = .ok r → i + 1 ≤ r.offset := by
  intro fuel
  induction fuel with
  | zero => intro n f i r h; exact absurd h (by simp [readContentDispositionGo])
  | succ fuel ih =>
    intro n f i r h
    rw [readContentDispositionGo] at h
    by_cases hi : i < params.length
    · rw [if_pos hi] at h
      cases he1 : (if jsFalsy n then extractParam (params.drop i) nameUTF8 else .ok none) with
      | error e => rw [he1] at h; cases h
      | ok o1 =>
        rw [he1] at h
        cases o1 with
        | some ep =>
          have := ih _ _ _ _ h
          omega
        | none =>
          cases he2 : (if jsFalsy f then extractParam (params.drop i) filenameUTF8
              else .ok none) with
          | error e => rw [he2] at h; cases h
          | ok o2 =>
            rw [he2] at h
            cases o2 with
            | some ep =>
              have := ih _ _ _ _ h
              omega
            | none =>
              by_cases hp : (params.get? (i - 1) == some crByte &&
                  params.get? i == some lfByte) = true
              · rw [if_pos hp] at h
                cases h
                exact Nat.le_refl _
              · rw [if_neg hp] at h
                have := ih _ _ _ _ h
                omega
    · rw [if_neg hi] at h; cases h

theorem arrayStartsWith_length (arr p : Buffer) (h : arrayStartsWith arr p = true) :
    p.length ≤ arr.length := by
  rw [arrayStartsWith_iff] at h
  have hl := congrArg List.length h
  simp only [List.length_take] at hl
  omega

theorem headerGuard_shift (pre rest : Buffer) (x : Nat) :
    headerGuard (pre ++ rest) (pre.length + x) = headerGuard rest x := by
  unfold headerGuard
  have h1 : (pre ++ rest).get? (pre.length + x) = rest.get? x := by
    rw [List.get?_append_right (by omega)]
    congr 1
    omega
  have h2 : (pre ++ rest).get? (pre.length + x + 1) = rest.get? (x + 1) := by
    rw [show pre.length + x + 1 = pre.length + (x + 1) from by omega,
      List.get?_append_right (by omega)]
    congr 1
    omega
  have h3 : decide (pre.length + x < (pre ++ rest).length) = decide (x < rest.length) := by
    apply decide_eq_decide.mpr
    simp only [List.length_append]
    omega
  rw [h1, h2, h3]

/-- Shift a header-scan state's position by `d` (used to relate a run on
`pre ++ rest` to the run on `rest`). -/
def shiftState (d : Nat) (s : HeaderScanState) : HeaderScanState :=
  { s with startIdx := d + s.startIdx }

theorem headerLoop_shift (pre rest : Buffer) :
    ∀ fuel s, headerLoop (pre ++ rest) fuel (shiftState pre.length s) =
      (headerLoop rest fuel s).map (shiftState pre.length) := by
  intro fuel
  induction fuel with
  | zero => intro s; rfl
  | succ fuel ih =>
    intro s
    rw [headerLoop, headerLoop]
    dsimp only [shiftState]
    rw [List.drop_append]
    by_cases hcd : (jsFalsy s.name &&
        arrayStartsWith (rest.drop s.startIdx) contentDispositionPrefixUTF8) = true
    · rw [if_pos hcd, if_pos hcd]
      cases hr : readContentDisposition (rest.drop s.startIdx) with
      | error e => rfl
      | ok r =>
        simp only []
        rw [show pre.length + s.startIdx + r.offset = pre.length + (s.startIdx + r.offset)
          from by omega, headerGuard_shift]
        by_cases hg : headerGuard rest (s.startIdx + r.offset) = true
        · rw [if_pos hg, if_pos hg]
          have hih := ih { s with name := r.params.name, filename := r.params.filename,
                                  startIdx := s.startIdx + r.offset }
          simpa [shiftState] using hih
        · rw [if_neg hg, if_neg hg]
          rfl
    · rw [if_neg hcd, if_neg hcd]
      by_cases hct : (jsFalsy s.contentType &&
          arrayStartsWith (rest.drop s.startIdx) contentTypePrefixUTF8) = true
      · rw [if_pos hct, if_pos hct]
        rw [show pre.length + s.startIdx + contentTypePrefixUTF8.length =
            pre.length + (s.startIdx + contentTypePrefixUTF8.length) from by omega,
          getLineEndIdx_shift pre rest,
          show pre.length + (s.startIdx + contentTypePrefixUTF8.length) + 1 =
            pre.length + (s.startIdx + contentTypePrefixUTF8.length + 1) from by omega,
          List.drop_append,
          show pre.length + getLineEndIdx rest (s.startIdx + contentTypePrefixUTF8.length) -
              (pre.length + (s.startIdx + contentTypePrefixUTF8.length + 1)) =
            getLineEndIdx rest (s.startIdx + contentTypePrefixUTF8.length) -
              (s.startIdx + contentTypePrefixUTF8.length + 1) from by omega,
          show pre.length + getLineEndIdx rest (s.startIdx + contentTypePrefixUTF8.length) + 2 =
            pre.length + (getLineEndIdx rest (s.startIdx + contentTypePrefixUTF8.length) + 2)
            from by omega, headerGuard_shift]
        by_cases hg : headerGuard rest
            (getLineEndIdx rest (s.startIdx + contentTypePrefixUTF8.length) + 2) = true
        · rw [if_pos hg, if_pos hg]
          obtain ⟨ctv, hctv⟩ : ∃ ctv, decodeUTF8 ((rest.drop (s.startIdx +
              contentTypePrefixUTF8.length + 1)).take (getLineEndIdx rest (s.startIdx +
              contentTypePrefixUTF8.length) - (s.startIdx + contentTypePrefixUTF8.length + 1))) =
              ctv := ⟨_, rfl⟩
          rw [hctv]
          have hih := ih { s with contentType := some ctv, startIdx := getLineEndIdx rest (s.startIdx + contentTypePrefixUTF8.length) + 2 }
          simpa [shiftState] using hih
        · rw [if_neg hg, if_neg hg]
          rfl
      · rw [if_neg hct, if_neg hct]
        rw [show pre.length + s.startIdx + 1 = pre.length + (s.startIdx + 1) from by omega,
          headerGuard_shift]
        by_cases hg : headerGuard rest (s.startIdx + 1) = true
        · rw [if_pos hg, if_pos hg]
          have hih := ih { s with startIdx := s.startIdx + 1 }
          simpa [shiftState] using hih
        · rw [if_neg hg, if_neg hg]
          rfl

theorem headerGuard_lt (array : Buffer) (x : Nat) (h : headerGuard array x = true) :
    x < array.length := by
  unfold headerGuard at h
  rw [Bool.and_eq_true] at h
  exact of_decide_eq_true h.2

theorem readContentDisposition_offset_pos (params : Buffer) (r : CDResult)
    (h : readContentDisposition params = .ok r) : 1 ≤ r.offset := by
  have := readContentDispositionGo_offset_pos params _ _ _ _ _ h
  omega

@[simp] theorem HeaderScanState.startIdx_mk (v : Nat) (n c f : Option String) :
    ({ startIdx := v, name := n, contentType := c, filename := f } : HeaderScanState).startIdx =
      v := rfl

theorem headerLoop_fuel_irrel (array : Buffer) :
    ∀ f1 f2 s, 1 ≤ f1 → array.length + 1 ≤ f1 + s.startIdx →
      1 ≤ f2 → array.length + 1 ≤ f2 + s.startIdx →
      headerLoop array f1 s = headerLoop array f2 s := by
  intro f1
  induction f1 with
  | zero => intro f2 s h1 _ _ _; omega
  | succ f1 ih =>
    intro f2 s _ h1 hf2 h2
    obtain ⟨g2, rfl⟩ : ∃ g2, f2 = g2 + 1 := ⟨f2 - 1, by omega⟩
    rw [headerLoop, headerLoop]
    by_cases hcd : (jsFalsy s.name &&
        arrayStartsWith (array.drop s.startIdx) contentDispositionPrefixUTF8) = true
    · rw [if_pos hcd, if_pos hcd]
      cases hr : readContentDisposition (array.drop s.startIdx) with
      | error e => rfl
      | ok r =>
        simp only []
        have hoff := readContentDisposition_offset_pos _ _ hr
        by_cases hg : headerGuard array (s.startIdx + r.offset) = true
        · rw [if_pos hg, if_pos hg]
          have hlt := headerGuard_lt array _ hg
          apply ih g2 <;> (try simp only [HeaderScanState.startIdx_mk]) <;> omega
        · rw [if_neg hg, if_neg hg]
    · rw [if_neg hcd, if_neg hcd]
      by_cases hct : (jsFalsy s.contentType &&
          arrayStartsWith (array.drop s.startIdx) contentTypePrefixUTF8) = true
      · rw [if_pos hct, if_pos hct]
        simp only []
        have hsw : arrayStartsWith (array.drop s.startIdx) contentTypePrefixUTF8 = true := by
          rw [Bool.and_eq_true] at hct
          exact hct.2
        have hctlen : (13 : Nat) ≤ (array.drop s.startIdx).length := by
          have := arrayStartsWith_length _ _ hsw
          have h13 : contentTypePrefixUTF8.length = 13 := by decide
          omega
        have hposlen : s.startIdx + contentTypePrefixUTF8.length ≤ array.length := by
          have h13 : contentTypePrefixUTF8.length = 13 := by decide
          simp only [List.length_drop] at hctlen
          omega
        have hge := getLineEndIdx_ge array (s.startIdx + contentTypePrefixUTF8.length) hposlen
        by_cases hg : headerGuard array
            (getLineEndIdx array (s.startIdx + contentTypePrefixUTF8.length) + 2) = true
        · rw [if_pos hg, if_pos hg]
          have hlt := headerGuard_lt array _ hg
          apply ih g2 <;> (try simp only [HeaderScanState.startIdx_mk]) <;> omega
        · rw [if_neg hg, if_neg hg]
      · rw [if_neg hct, if_neg hct]
        simp only []
        by_cases hg : headerGuard array (s.startIdx + 1) = true
        · rw [if_pos hg, if_pos hg]
          have hlt := headerGuard_lt array _ hg
          apply ih g2 <;> (try simp only [HeaderScanState.startIdx_mk]) <;> omega
        · rw [if_neg hg, if_neg hg]

theorem headerScan_shift (pre rest : Buffer) (le : Nat) :
    headerScan (pre ++ rest) (pre.length + le) =
      (headerScan rest le).map (shiftState pre.length) := by
  unfold headerScan
  have hstate : ({ startIdx := pre.length + le, name := none, contentType := none, filename := none } : HeaderScanState) = shiftState pre.length { startIdx := le, name := none, contentType := none, filename := none } := rfl
  rw [hstate, headerLoop_shift pre rest ((pre ++ rest).length + 2)]
  congr 1
  apply headerLoop_fuel_irrel <;>
    (try simp only [List.length_append, HeaderScanState.startIdx_mk]) <;> omega

theorem bodyScan_shift (pre rest sep : Buffer) :
    ∀ fuel p, bodyScan (pre ++ rest) sep fuel (pre.length + p) =
      (bodyScan rest sep fuel p).map (fun v => pre.length + v) := by
  intro fuel
  induction fuel with
  | zero => intro p; rfl
  | succ fuel ih =>
    intro p
    rw [bodyScan, bodyScan]
    rw [getLineEndIdx_shift pre rest p,
      show pre.length + getLineEndIdx rest p + 2 = pre.length + (getLineEndIdx rest p + 2)
        from by omega,
      List.drop_append]
    by_cases hm : arrayStartsWith (rest.drop (getLineEndIdx rest p + 2)) sep = true
    · rw [if_pos hm, if_pos hm]
      rfl
    · rw [if_neg hm, if_neg hm]
      exact ih _

theorem partsLoop_shift (pre rest sep : Buffer) (procs : ContentProcessors) :
    ∀ fuel s le r,
      partsLoop (pre ++ rest) sep procs fuel (pre.length + s) (pre.length + le) r =
        partsLoop rest sep procs fuel s le r := by
  intro fuel
  induction fuel with
  | zero => intro s le r; rfl
  | succ fuel ih =>
    intro s le r
    rw [partsLoop, partsLoop]
    by_cases hin : s < rest.length
    · rw [if_pos (by simp only [List.length_append]; omega), if_pos hin]
      rw [headerScan_shift pre rest le]
      cases hhs : headerScan rest le with
      | error e => rfl
      | ok s1 =>
        simp only [Except.map]
        dsimp only [shiftState]
        by_cases hname : jsFalsy s1.name = true
        · rw [if_pos hname, if_pos hname]
        · rw [if_neg hname, if_neg hname]
          rw [show pre.length + s1.startIdx + 1 = pre.length + (s1.startIdx + 1) from by omega,
            bodyScan_shift pre rest sep fuel (s1.startIdx + 1)]
          cases hbs : bodyScan rest sep fuel (s1.startIdx + 1) with
          | none => rfl
          | some le2 =>
            simp only [Option.map]
            rw [show pre.length + (s1.startIdx + 1) + 1 = pre.length + (s1.startIdx + 1 + 1)
                from by omega,
              List.drop_append,
              show pre.length + le2 - 2 - (pre.length + (s1.startIdx + 1 + 1)) =
                le2 - 2 - (s1.startIdx + 1 + 1) from by omega]
            cases hpc : processContent procs (s1.contentType.getD "text/plain")
                ((rest.drop (s1.startIdx + 1 + 1)).take (le2 - 2 - (s1.startIdx + 1 + 1)))
                s1.filename with
            | error e => rfl
            | ok content =>
              simp only []
              rw [show pre.length + le2 + sep.length = pre.length + (le2 + sep.length)
                  from by omega,
                List.drop_append,
                getLineEndIdx_shift pre rest le2,
                show pre.length + getLineEndIdx rest le2 - (pre.length + (le2 + sep.length)) =
                  getLineEndIdx rest le2 - (le2 + sep.length) from by omega]
              by_cases hfin : (((rest.drop (le2 + sep.length)).take
                    (getLineEndIdx rest le2 - (le2 + sep.length))).get? 0 == some finalByte &&
                  ((rest.drop (le2 + sep.length)).take
                    (getLineEndIdx rest le2 - (le2 + sep.length))).get? 1 ==
                      some finalByte) = true
              · rw [if_pos hfin, if_pos hfin]
              · rw [if_neg hfin, if_neg hfin]
                rw [show pre.length + getLineEndIdx rest le2 + 2 =
                  pre.length + (getLineEndIdx rest le2 + 2) from by omega]
                exact ih le2 (getLineEndIdx rest le2 + 2) _
    · rw [if_neg (by simp only [List.length_append]; omega), if_neg hin]

/-- C8.  Prepending a preamble made of CRLF-terminated lines, none of which
starts with the boundary delimiter, never changes the parse result: the
whole run on `pre ++ payload` is the run on `payload` shifted by
`pre.length`.  (This holds for every nonempty payload, in particular for
every well-formed part sequence.) -/
theorem C8_preamble_invariance (pre payload : Buffer) (boundary : String)
    (procs : ContentProcessors) (fuel : Nat)
    (hvp : ValidPreamble (encodeUTF8 ("--" ++ boundary)) pre)
    (hpl : payload ≠ []) :
    parseMultipartFormData fuel (pre ++ payload) boundary procs =
      parseMultipartFormData fuel payload boundary procs := by
  have hpre : preambleLoop (pre ++ payload) (encodeUTF8 ("--" ++ boundary)) =
      pre.length + preambleLoop payload (encodeUTF8 ("--" ++ boundary)) := by
    unfold preambleLoop
    exact preambleLoopGo_consume _ pre hvp payload hpl _
      (by simp only [List.length_append]; omega)
  have h1 : parseMultipartFormData fuel (pre ++ payload) boundary procs =
      partsLoop (pre ++ payload) (encodeUTF8 ("--" ++ boundary))
        (contentProcessorsWithDefaults procs) fuel
        (preambleLoop (pre ++ payload) (encodeUTF8 ("--" ++ boundary)))
        (preambleLoop (pre ++ payload) (encodeUTF8 ("--" ++ boundary))) [] := rfl
  have h2 : parseMultipartFormData fuel payload boundary procs =
      partsLoop payload (encodeUTF8 ("--" ++ boundary))
        (contentProcessorsWithDefaults procs) fuel
        (preambleLoop payload (encodeUTF8 ("--" ++ boundary)))
        (preambleLoop payload (encodeUTF8 ("--" ++ boundary))) [] := rfl
  rw [h1, h2, hpre, partsLoop_shift]

/-- Closed witness for C8: a one-line preamble before a one-part payload. -/
theorem C8_witness :
    parseMultipartFormData 3 (encodeUTF8 "hi\r\n" ++
        encodeUTF8 "--B\r\nContent-Disposition: form-data; name=\"a\"\r\n\r\nok\r\n--B--")
      "B" [] =
    parseMultipartFormData 3
      (encodeUTF8 "--B\r\nContent-Disposition: form-data; name=\"a\"\r\n\r\nok\r\n--B--")
      "B" [] := by
  apply C8_preamble_invariance
  · have h : encodeUTF8 "hi\r\n" = encodeUTF8 "hi" ++ crByte :: lfByte :: ([] : Buffer) := by
      decide
    rw [h]
    exact ValidPreamble.cons _ _ (by decide) (by decide) ValidPreamble.nil
  · decide

/-! ## Prefix-agreement lemmas: two buffers sharing a prefix (claim C9) -/

theorem prefix_get (c A : Buffer) (h : c <+: A) (i : Nat) (hi : i < c.length) :
    A.get? i = c.get? i := by
  obtain ⟨t, rfl⟩ := h
  exact List.get?_append hi

theorem get_agree (c A1 A2 : Buffer) (h1 : c <+: A1) (h2 : c <+: A2) (i : Nat)
    (hi : i < c.length) : A1.get? i = A2.get? i := by
  rw [prefix_get c A1 h1 i hi, prefix_get c A2 h2 i hi]

theorem prefix_drop_take (c A : Buffer) (h : c <+: A) (a k : Nat) (hb : a + k ≤ c.length) :
    (A.drop a).take k = (c.drop a).take k := by
  obtain ⟨t, rfl⟩ := h
  rw [List.drop_append_of_le_length (by omega),
    List.take_append_of_le_length (by simp only [List.length_drop]; omega)]

theorem drop_take_agree (c A1 A2 : Buffer) (h1 : c <+: A1) (h2 : c <+: A2) (a k : Nat)
    (hb : a + k ≤ c.length) : (A1.drop a).take k = (A2.drop a).take k := by
  rw [prefix_drop_take c A1 h1 a k hb, prefix_drop_take c A2 h2 a k hb]

theorem prefix_length_le (c A : Buffer) (h : c <+: A) : c.length ≤ A.length :=
  h.length_le

theorem prefix_drop (c A : Buffer) (h : c <+: A) (n : Nat) : c.drop n <+: A.drop n := by
  obtain ⟨t, rfl⟩ := h
  by_cases hn : n ≤ c.length
  · rw [List.drop_append_of_le_length hn]
    exact ⟨t, rfl⟩
  · rw [List.drop_eq_nil_of_le (by omega : c.length ≤ n)]
    exact List.nil_prefix

theorem gleGo_no_pair (A : Buffer) :
    ∀ fuel i, A.length ≤ i + fuel → 1 ≤ i →
      ∀ j, i ≤ j → j ≤ getLineEndIdxGo A fuel i →
        ¬(A.get? (j - 1) = some crByte ∧ A.get? j = some lfByte) := by
  intro fuel
  induction fuel with
  | zero =>
    intro i hsuf _ j hj1 _ hpair
    have : A.get? j = none := List.get?_eq_none.mpr (by omega)
    rw [this] at hpair
    exact absurd hpair.2 (by simp)
  | succ fuel ih =>
    intro i hsuf hi1 j hj1 hj2
    rw [getLineEndIdxGo] at hj2
    by_cases hi : i < A.length
    · rw [if_pos hi] at hj2
      by_cases hp : (A.get? (i - 1) == some crByte && A.get? i == some lfByte) = true
      · rw [if_pos hp] at hj2
        omega
      · rw [if_neg hp] at hj2
        rcases Nat.eq_or_lt_of_le hj1 with rfl | hj1'
        · intro hpair
          apply hp
          simp only [Bool.and_eq_true, beq_iff_eq]
          exact hpair
        · exact ih (i + 1) (by omega) (by omega) j (by omega) hj2
    · intro hpair
      have : A.get? j = none := List.get?_eq_none.mpr (by omega)
      rw [this] at hpair
      exact absurd hpair.2 (by simp)

theorem getLineEndIdx_no_pair (A : Buffer) (o : Nat) :
    ∀ j, o + 1 ≤ j → j ≤ getLineEndIdx A o →
      ¬(A.get? (j - 1) = some crByte ∧ A.get? j = some lfByte) :=
  fun j hj1 hj2 => gleGo_no_pair A A.length (o + 1) (by omega) (by omega) j hj1 hj2

theorem getLineEndIdx_ub (A : Buffer) (o q : Nat) (hq1 : A.get? q = some crByte)
    (hq2 : A.get? (q + 1) = some lfByte) (ho : o ≤ q) :
    getLineEndIdx A o ≤ q := by
  by_contra h
  push_neg at h
  exact getLineEndIdx_no_pair A o (q + 1) (by omega) (by omega)
    ⟨by simpa using hq1, hq2⟩

theorem getLineEndIdx_agree (c A1 A2 : Buffer) (h1 : c <+: A1) (h2 : c <+: A2) (o q : Nat)
    (hq : getLineEndIdx A1 o = q) (hlt : q + 1 < c.length) : getLineEndIdx A2 o = q := by
  have hlen1 := prefix_length_le c A1 h1
  have hlen2 := prefix_length_le c A2 h2
  rcases getLineEndIdx_pair_or_end A1 o with hend | ⟨hcr, hlf⟩
  · omega
  · rw [hq] at hcr hlf
    have ho : o ≤ q := by
      by_cases hole : o ≤ A1.length
      · have := getLineEndIdx_ge A1 o hole
        omega
      · have := getLineEndIdx_of_gt A1 o (by omega)
        omega
    have hnp := getLineEndIdx_no_pair A1 o
    rw [hq] at hnp
    unfold getLineEndIdx
    apply getLineEndIdxGo_eq_of_first
    · rw [get_agree c A2 A1 h2 h1 q (by omega)]
      exact hcr
    · rw [get_agree c A2 A1 h2 h1 (q + 1) (by omega)]
      exact hlf
    · omega
    · omega
    · omega
    · omega
    · intro j hj1 hj2 hpair
      apply hnp j hj1 (by omega)
      constructor
      · rw [get_agree c A1 A2 h1 h2 (j - 1) (by omega)]
        exact hpair.1
      · rw [get_agree c A1 A2 h1 h2 j (by omega)]
        exact hpair.2

theorem arrayStartsWith_false_of_byte (arr P : Buffer) (k : Nat) (hk : k < P.length)
    (b pb : Nat) (hb : arr.get? k = some b) (hpb : P.get? k = some pb) (hne : b ≠ pb) :
    arrayStartsWith arr P = false := by
  rw [Bool.eq_false_iff]
  intro hsw
  rw [arrayStartsWith_iff] at hsw
  have : (arr.take P.length).get? k = P.get? k := by rw [hsw]
  rw [List.get?_take hk, hb, hpb] at this
  exact hne (by simpa using this)

theorem arrayStartsWith_agree_take (c A1 A2 : Buffer) (h1 : c <+: A1) (h2 : c <+: A2)
    (P : Buffer) (pos : Nat) (hwin : pos + P.length ≤ c.length) :
    arrayStartsWith (A1.drop pos) P = arrayStartsWith (A2.drop pos) P := by
  unfold arrayStartsWith arrayEq
  rw [drop_take_agree c A1 A2 h1 h2 pos P.length hwin]

/-- Agreement of a prefix test through a window that may cross the end of
the shared prefix, provided some CR byte of the shared prefix lies at or
after the window start and the pattern contains no CR byte: the CR byte
then refutes the match inside the shared prefix on both sides. -/
theorem arrayStartsWith_agree_cr (c A1 A2 : Buffer) (h1 : c <+: A1) (h2 : c <+: A2)
    (P : Buffer) (hP : ∀ b ∈ P, b ≠ crByte) (pos B : Nat)
    (hposB : pos ≤ B) (hBcr : c.get? B = some crByte) (hB : B < c.length) :
    arrayStartsWith (A1.drop pos) P = arrayStartsWith (A2.drop pos) P := by
  by_cases hwin : pos + P.length ≤ c.length
  · exact arrayStartsWith_agree_take c A1 A2 h1 h2 P pos hwin
  · have hk : B - pos < P.length := by omega
    have hbyte : ∀ A : Buffer, c <+: A → (A.drop pos).get? (B - pos) = some crByte := by
      intro A hA
      rw [List.get?_drop, show pos + (B - pos) = B from by omega, prefix_get c A hA B hB]
      exact hBcr
    obtain ⟨pb, hpb⟩ : ∃ pb, P.get? (B - pos) = some pb := by
      rcases hpg : P.get? (B - pos) with - | pb
      · rw [List.get?_eq_none] at hpg
        omega
      · exact ⟨pb, rfl⟩
    have hpbne : crByte ≠ pb := by
      have := hP pb (by
        have := List.get?_mem hpb
        exact this)
      exact fun hh => this hh.symm
    rw [arrayStartsWith_false_of_byte (A1.drop pos) P (B - pos) hk crByte pb
        (hbyte A1 h1) hpb hpbne,
      arrayStartsWith_false_of_byte (A2.drop pos) P (B - pos) hk crByte pb
        (hbyte A2 h2) hpb hpbne]

theorem extractParam_agree_none (c p1 p2 key : Buffer) (h1 : c <+: p1) (h2 : c <+: p2)
    (hkey : ∀ b ∈ key, b ≠ crByte ∧ b ≠ lfByte)
    (hcrlf : ∃ m, m < c.length ∧ (c.get? m = some crByte ∨ c.get? m = some lfByte))
    (hnone : extractParam p1 key = .ok none) :
    extractParam p2 key = .ok none := by
  unfold extractParam at hnone ⊢
  by_cases hcase : key.length + 1 ≤ c.length
  · have hgeq : p1.get? key.length = p2.get? key.length :=
      get_agree c p1 p2 h1 h2 _ (by omega)
    have htk : p1.take key.length = p2.take key.length := by
      have e1 : p1.take key.length = (p1.drop 0).take key.length := by simp
      have e2 : p2.take key.length = (p2.drop 0).take key.length := by simp
      rw [e1, e2, drop_take_agree c p1 p2 h1 h2 0 key.length (by omega)]
    by_cases hc1 : (!(p1.get? key.length == some equalUTF8) ||
        !(arrayEq (p1.take key.length) key)) = true
    · rw [if_pos (by rw [← hgeq, ← htk]; exact hc1)]
    · rw [if_neg hc1] at hnone
      cases hgo : extractParamGo p1 p1.length key.length (key.length + 2) with
      | error e => rw [hgo] at hnone; exact absurd hnone (by simp [Except.map])
      | ok v => rw [hgo] at hnone; exact absurd hnone (by simp [Except.map])
  · push_neg at hcase
    obtain ⟨m, hm, hcr⟩ := hcrlf
    have hmk : m < key.length := by omega
    obtain ⟨kb, hkb⟩ : ∃ kb, key.get? m = some kb := by
      rcases hpg : key.get? m with - | kb
      · rw [List.get?_eq_none] at hpg
        omega
      · exact ⟨kb, rfl⟩
    have hkbne := hkey kb (List.get?_mem hkb)
    have htkne : arrayEq (p2.take key.length) key = false := by
      rw [Bool.eq_false_iff]
      intro he
      rw [arrayEq, beq_iff_eq] at he
      have hgq : (p2.take key.length).get? m = key.get? m := by rw [he]
      rw [List.get?_take hmk, prefix_get c p2 h2 m hm, hkb] at hgq
      rcases hcr with hcr | hcr <;> rw [hcr] at hgq <;>
        simp only [Option.some.injEq] at hgq <;> simp_all
    rw [if_pos (by rw [htkne]; simp)]

theorem extractParam_agree_some (c p1 p2 key : Buffer) (h1 : c <+: p1) (h2 : c <+: p2)
    (ep : ExtractedParam) (hsome : extractParam p1 key = .ok (some ep))
    (hoff : ep.offset ≤ c.length) :
    extractParam p2 key = .ok (some ep) := by
  rw [C4_extractParam_characterization] at hsome ⊢
  obtain ⟨heq, htk, q, hq1, hq2, hq3, hq4, hr⟩ := hsome
  have hoq : ep.offset = q + 1 := by rw [hr]
  rw [hoq] at hoff
  have htkagree : p1.take key.length = p2.take key.length := by
    have e1 : p1.take key.length = (p1.drop 0).take key.length := by simp
    have e2 : p2.take key.length = (p2.drop 0).take key.length := by simp
    rw [e1, e2, drop_take_agree c p1 p2 h1 h2 0 key.length (by omega)]
  refine ⟨?_, ?_, q, hq1, ?_, ?_, ?_, ?_⟩
  · rw [← get_agree c p1 p2 h1 h2 key.length (by omega)]
    exact heq
  · rw [← htkagree]
    exact htk
  · have := prefix_length_le c p2 h2
    omega
  · rw [← get_agree c p1 p2 h1 h2 q (by omega)]
    exact hq3
  · intro j hj1 hj2
    rw [← get_agree c p1 p2 h1 h2 j (by omega)]
    exact hq4 j hj1 hj2
  · have hslice : (p1.drop (key.length + 2)).take (q - (key.length + 2)) =
        (p2.drop (key.length + 2)).take (q - (key.length + 2)) :=
      drop_take_agree c p1 p2 h1 h2 _ _ (by omega)
    rw [← hslice]
    exact hr

theorem readContentDispositionGo_pair (params : Buffer) :
    ∀ fuel name filename i r,
      readContentDispositionGo params fuel name filename i = .ok r →
      params.get? (r.offset - 2) = some crByte ∧ params.get? (r.offset - 1) = some lfByte := by
  intro fuel
  induction fuel with
  | zero => intro n f i r h; exact absurd h (by simp [readContentDispositionGo])
  | succ fuel ih =>
    intro n f i r h
    rw [readContentDispositionGo] at h
    by_cases hi : i < params.length
    · rw [if_pos hi] at h
      cases he1 : (if jsFalsy n then extractParam (params.drop i) nameUTF8 else .ok none) with
      | error e => rw [he1] at h; cases h
      | ok o1 =>
        rw [he1] at h
        cases o1 with
        | some ep => exact ih _ _ _ _ h
        | none =>
          cases he2 : (if jsFalsy f then extractParam (params.drop i) filenameUTF8
              else .ok none) with
          | error e => rw [he2] at h; cases h
          | ok o2 =>
            rw [he2] at h
            cases o2 with
            | some ep => exact ih _ _ _ _ h
            | none =>
              by_cases hp : (params.get? (i - 1) == some crByte &&
                  params.get? i == some lfByte) = true
              · rw [if_pos hp] at h
                cases h
                rw [Bool.and_eq_true, beq_iff_eq, beq_iff_eq] at hp
                constructor
                · rw [show i + 1 - 2 = i - 1 from by omega]
                  exact hp.1
                · rw [show i + 1 - 1 = i from by omega]
                  exact hp.2
              · rw [if_neg hp] at h
                exact ih _ _ _ _ h
    · rw [if_neg hi] at h; cases h

theorem readContentDispositionGo_agree (c params1 params2 : Buffer)
    (h1 : c <+: params1) (h2 : c <+: params2) :
    ∀ fuel1 fuel2 name filename i r,
      params2.length ≤ i + fuel2 →
      readContentDispositionGo params1 fuel1 name filename i = .ok r →
      r.offset ≤ c.length →
      readContentDispositionGo params2 fuel2 name filename i = .ok r := by
  intro fuel1
  induction fuel1 with
  | zero => intro f2 n f i r _ h _; exact absurd h (by simp [readContentDispositionGo])
  | succ fuel1 ih =>
    intro f2 n f i r hsuf2 hrun hoff
    have hioff := readContentDispositionGo_offset_pos params1 _ _ _ _ _ hrun
    have hilt : i < c.length := by omega
    have hlen1 := prefix_length_le c params1 h1
    have hlen2 := prefix_length_le c params2 h2
    have hi2 : i < params2.length := by omega
    obtain ⟨g2, rfl⟩ : ∃ g2, f2 = g2 + 1 := ⟨f2 - 1, by omega⟩
    have hpair := readContentDispositionGo_pair params1 _ _ _ _ _ hrun
    have hcrlf : ∃ m, m < (c.drop i).length ∧
        ((c.drop i).get? m = some crByte ∨ (c.drop i).get? m = some lfByte) := by
      refine ⟨r.offset - 1 - i, by simp only [List.length_drop]; omega, Or.inr ?_⟩
      rw [List.get?_drop, show i + (r.offset - 1 - i) = r.offset - 1 from by omega,
        ← prefix_get c params1 h1 _ (by omega : r.offset - 1 < c.length)]
      exact hpair.2
    rw [readContentDispositionGo] at hrun
    rw [if_pos (by omega : i < params1.length)] at hrun
    rw [readContentDispositionGo, if_pos hi2]
    cases ht1 : (if jsFalsy n then extractParam (params1.drop i) nameUTF8 else .ok none) with
    | error e => rw [ht1] at hrun; cases hrun
    | ok o1 =>
      rw [ht1] at hrun
      cases o1 with
      | some ep =>
        have hjf : jsFalsy n = true := by
          by_contra hjf'
          rw [Bool.not_eq_true] at hjf'
          rw [hjf'] at ht1
          simp at ht1
        rw [hjf] at ht1
        simp only [if_true] at ht1
        have hoffrec := readContentDispositionGo_offset_pos params1 _ _ _ _ _ hrun
        have hep2 : extractParam (params2.drop i) nameUTF8 = .ok (some ep) :=
          extractParam_agree_some (c.drop i) _ _ _ (prefix_drop c params1 h1 i)
            (prefix_drop c params2 h2 i) ep ht1 (by simp only [List.length_drop]; omega)
        rw [hjf]
        simp only [if_true, hep2]
        exact ih g2 _ _ _ _ (by omega) hrun hoff
      | none =>
        have ht2 : (if jsFalsy n then extractParam (params2.drop i) nameUTF8
            else .ok none) = .ok none := by
          by_cases hjf : jsFalsy n = true
          · rw [hjf] at ht1 ⊢
            simp only [if_true] at ht1 ⊢
            exact extractParam_agree_none (c.drop i) _ _ _ (prefix_drop c params1 h1 i)
              (prefix_drop c params2 h2 i) (by decide) hcrlf ht1
          · rw [Bool.not_eq_true] at hjf
            rw [hjf]
            simp
        rw [ht2]
        cases hu1 : (if jsFalsy f then extractParam (params1.drop i) filenameUTF8
            else .ok none) with
        | error e => rw [hu1] at hrun; cases hrun
        | ok o2 =>
          rw [hu1] at hrun
          cases o2 with
          | some ep =>
            have hjf : jsFalsy f = true := by
              by_contra hjf'
              rw [Bool.not_eq_true] at hjf'
              rw [hjf'] at hu1
              simp at hu1
            rw [hjf] at hu1
            simp only [if_true] at hu1
            have hoffrec := readContentDispositionGo_offset_pos params1 _ _ _ _ _ hrun
            have hep2 : extractParam (params2.drop i) filenameUTF8 = .ok (some ep) :=
              extractParam_agree_some (c.drop i) _ _ _ (prefix_drop c params1 h1 i)
                (prefix_drop c params2 h2 i) ep hu1 (by simp only [List.length_drop]; omega)
            rw [hjf]
            simp only [if_true, hep2]
            exact ih g2 _ _ _ _ (by omega) hrun hoff
          | none =>
            have hu2 : (if jsFalsy f then extractParam (params2.drop i) filenameUTF8
                else .ok none) = .ok none := by
              by_cases hjf : jsFalsy f = true
              · rw [hjf] at hu1 ⊢
                simp only [if_true] at hu1 ⊢
                exact extractParam_agree_none (c.drop i) _ _ _ (prefix_drop c params1 h1 i)
                  (prefix_drop c params2 h2 i) (by decide) hcrlf hu1
              · rw [Bool.not_eq_true] at hjf
                rw [hjf]
                simp
            rw [hu2]
            have hbyteq : params1.get? (i - 1) = params2.get? (i - 1) :=
              get_agree c params1 params2 h1 h2 _ (by omega)
            have hbyteq2 : params1.get? i = params2.get? i :=
              get_agree c params1 params2 h1 h2 _ (by omega)
            by_cases hp : (params1.get? (i - 1) == some crByte &&
                params1.get? i == some lfByte) = true
            · rw [if_pos hp] at hrun
              rw [if_pos (by rw [← hbyteq, ← hbyteq2]; exact hp)]
              exact hrun
            · rw [if_neg hp] at hrun
              rw [if_neg (by rw [← hbyteq, ← hbyteq2]; exact hp)]
              exact ih g2 _ _ _ _ (by omega) hrun hoff

theorem readContentDisposition_agree (c p1 p2 : Buffer) (h1 : c <+: p1) (h2 : c <+: p2)
    (r : CDResult) (hr : readContentDisposition p1 = .ok r) (hoff : r.offset ≤ c.length) :
    readContentDisposition p2 = .ok r := by
  unfold readContentDisposition at hr ⊢
  exact readContentDispositionGo_agree c p1 p2 h1 h2 _ _ _ _ _ _
    (by omega) hr hoff

theorem headerLoop_mono (A : Buffer) :
    ∀ fuel s s1, headerLoop A fuel s = .ok s1 → s.startIdx ≤ s1.startIdx := by
  intro fuel
  induction fuel with
  | zero => intro s s1 h; cases h; exact Nat.le_refl _
  | succ fuel ih =>
    intro s s1 h
    rw [headerLoop] at h
    by_cases hcd : (jsFalsy s.name &&
        arrayStartsWith (A.drop s.startIdx) contentDispositionPrefixUTF8) = true
    · rw [if_pos hcd] at h
      cases hr : readContentDisposition (A.drop s.startIdx) with
      | error e => rw [hr] at h; cases h
      | ok r =>
        rw [hr] at h
        simp only [] at h
        by_cases hg : headerGuard A (s.startIdx + r.offset) = true
        · rw [if_pos hg] at h
          have := ih _ _ h
          simp only [HeaderScanState.startIdx_mk] at this
          omega
        · rw [if_neg hg] at h
          cases h
          simp only [HeaderScanState.startIdx_mk]
          omega
    · rw [if_neg hcd] at h
      by_cases hct : (jsFalsy s.contentType &&
          arrayStartsWith (A.drop s.startIdx) contentTypePrefixUTF8) = true
      · rw [if_pos hct] at h
        simp only [] at h
        have hsw : arrayStartsWith (A.drop s.startIdx) contentTypePrefixUTF8 = true := by
          rw [Bool.and_eq_true] at hct
          exact hct.2
        have hposlen : s.startIdx + contentTypePrefixUTF8.length ≤ A.length := by
          have := arrayStartsWith_length _ _ hsw
          have h13 : contentTypePrefixUTF8.length = 13 := by decide
          simp only [List.length_drop] at this
          omega
        have hge := getLineEndIdx_ge A (s.startIdx + contentTypePrefixUTF8.length) hposlen
        by_cases hg : headerGuard A
            (getLineEndIdx A (s.startIdx + contentTypePrefixUTF8.length) + 2) = true
        · rw [if_pos hg] at h
          have := ih _ _ h
          simp only [HeaderScanState.startIdx_mk] at this
          omega
        · rw [if_neg hg] at h
          cases h
          simp only [HeaderScanState.startIdx_mk]
          omega
      · rw [if_neg hct] at h
        simp only [] at h
        by_cases hg : headerGuard A (s.startIdx + 1) = true
        · rw [if_pos hg] at h
          have := ih _ _ h
          simp only [HeaderScanState.startIdx_mk] at this
          omega
        · rw [if_neg hg] at h
          cases h
          simp only [HeaderScanState.startIdx_mk]
          omega

theorem headerLoop_exit (A : Buffer) :
    ∀ fuel s s1, 1 ≤ fuel → A.length + 1 ≤ fuel + s.startIdx →
      headerLoop A fuel s = .ok s1 → headerGuard A s1.startIdx = false := by
  intro fuel
  induction fuel with
  | zero => intro s s1 h; omega
  | succ fuel ih =>
    intro s s1 _ hsuf h
    rw [headerLoop] at h
    by_cases hcd : (jsFalsy s.name &&
        arrayStartsWith (A.drop s.startIdx) contentDispositionPrefixUTF8) = true
    · rw [if_pos hcd] at h
      cases hr : readContentDisposition (A.drop s.startIdx) with
      | error e => rw [hr] at h; cases h
      | ok r =>
        rw [hr] at h
        simp only [] at h
        have hoff := readContentDisposition_offset_pos _ _ hr
        by_cases hg : headerGuard A (s.startIdx + r.offset) = true
        · rw [if_pos hg] at h
          have hlt := headerGuard_lt A _ hg
          exact ih _ _ (by omega) (by simp only [HeaderScanState.startIdx_mk]; omega) h
        · rw [if_neg hg] at h
          cases h
          simpa using hg
    · rw [if_neg hcd] at h
      by_cases hct : (jsFalsy s.contentType &&
          arrayStartsWith (A.drop s.startIdx) contentTypePrefixUTF8) = true
      · rw [if_pos hct] at h
        simp only [] at h
        have hsw : arrayStartsWith (A.drop s.startIdx) contentTypePrefixUTF8 = true := by
          rw [Bool.and_eq_true] at hct
          exact hct.2
        have hposlen : s.startIdx + contentTypePrefixUTF8.length ≤ A.length := by
          have := arrayStartsWith_length _ _ hsw
          have h13 : contentTypePrefixUTF8.length = 13 := by decide
          simp only [List.length_drop] at this
          omega
        have hge := getLineEndIdx_ge A (s.startIdx + contentTypePrefixUTF8.length) hposlen
        by_cases hg : headerGuard A
            (getLineEndIdx A (s.startIdx + contentTypePrefixUTF8.length) + 2) = true
        · rw [if_pos hg] at h
          have hlt := headerGuard_lt A _ hg
          exact ih _ _ (by omega) (by simp only [HeaderScanState.startIdx_mk]; omega) h
        · rw [if_neg hg] at h
          cases h
          simpa using hg
      · rw [if_neg hct] at h
        simp only [] at h
        by_cases hg : headerGuard A (s.startIdx + 1) = true
        · rw [if_pos hg] at h
          have hlt := headerGuard_lt A _ hg
          exact ih _ _ (by omega) (by simp only [HeaderScanState.startIdx_mk]; omega) h
        · rw [if_neg hg] at h
          cases h
          simpa using hg

theorem headerGuard_agree (c A1 A2 : Buffer) (h1 : c <+: A1) (h2 : c <+: A2) (x : Nat)
    (hx : x + 1 < c.length) : headerGuard A2 x = headerGuard A1 x := by
  unfold headerGuard
  rw [get_agree c A1 A2 h1 h2 x (by omega), get_agree c A1 A2 h1 h2 (x + 1) (by omega)]
  have d1 : decide (x < A1.length) = true :=
    decide_eq_true (by have := prefix_length_le c A1 h1; omega)
  have d2 : decide (x < A2.length) = true :=
    decide_eq_true (by have := prefix_length_le c A2 h2; omega)
  rw [d1, d2]

/-- Runs of the header-block loop on two buffers sharing a prefix agree
whenever the run on the first buffer exits with the blank-line CRLF still
strictly inside the shared prefix: every byte the loop inspects then lies
in the shared prefix. -/
theorem headerLoop_agree (c A1 A2 : Buffer) (h1 : c <+: A1) (h2 : c <+: A2) :
    ∀ fuel1 fuel2 s s1,
      A1.length + 1 ≤ fuel1 + s.startIdx →
      A2.length + 1 ≤ fuel2 + s.startIdx →
      headerLoop A1 fuel1 s = .ok s1 →
      s1.startIdx + 1 < c.length →
      headerLoop A2 fuel2 s = .ok s1 := by
  intro fuel1
  induction fuel1 with
  | zero =>
    intro fuel2 s s1 hs1 hs2 hrun hbound
    cases hrun
    exact absurd hbound (by have := prefix_length_le c A1 h1; omega)
  | succ fuel1 ih =>
    intro fuel2 s s1 hs1 hs2 hrun hbound
    have hlenc1 := prefix_length_le c A1 h1
    have hlenc2 := prefix_length_le c A2 h2
    have hmono := headerLoop_mono A1 _ _ _ hrun
    have hexit := headerLoop_exit A1 _ _ _ (by omega) hs1 hrun
    obtain ⟨g2, rfl⟩ : ∃ g2, fuel2 = g2 + 1 := ⟨fuel2 - 1, by omega⟩
    have hpair : (A1.get? s1.startIdx == some crByte) = true ∧
        (A1.get? (s1.startIdx + 1) == some lfByte) = true := by
      have hlt1 : s1.startIdx < A1.length := by omega
      unfold headerGuard at hexit
      rw [decide_eq_true hlt1, Bool.and_true] at hexit
      cases hb1 : (A1.get? s1.startIdx == some crByte) with
      | false => rw [hb1] at hexit; simp at hexit
      | true =>
        cases hb2 : (A1.get? (s1.startIdx + 1) == some lfByte) with
        | false => rw [hb2] at hexit; simp at hexit
        | true => exact ⟨rfl, rfl⟩
    have hcrc : c.get? s1.startIdx = some crByte := by
      rw [← prefix_get c A1 h1 s1.startIdx (by omega)]
      exact eq_of_beq hpair.1
    have hcdagree : arrayStartsWith (A1.drop s.startIdx) contentDispositionPrefixUTF8 =
        arrayStartsWith (A2.drop s.startIdx) contentDispositionPrefixUTF8 :=
      arrayStartsWith_agree_cr c A1 A2 h1 h2 _ (by decide) s.startIdx s1.startIdx
        hmono hcrc (by omega)
    have hctagree : arrayStartsWith (A1.drop s.startIdx) contentTypePrefixUTF8 =
        arrayStartsWith (A2.drop s.startIdx) contentTypePrefixUTF8 :=
      arrayStartsWith_agree_cr c A1 A2 h1 h2 _ (by decide) s.startIdx s1.startIdx
        hmono hcrc (by omega)
    rw [headerLoop] at hrun
    rw [headerLoop]
    by_cases hcd : (jsFalsy s.name &&
        arrayStartsWith (A1.drop s.startIdx) contentDispositionPrefixUTF8) = true
    · rw [if_pos hcd] at hrun
      rw [if_pos (show (jsFalsy s.name &&
          arrayStartsWith (A2.drop s.startIdx) contentDispositionPrefixUTF8) = true from by
        rw [← hcdagree]; exact hcd)]
      cases hr : readContentDisposition (A1.drop s.startIdx) with
      | error e => rw [hr] at hrun; cases hrun
      | ok r =>
        rw [hr] at hrun
        simp only [] at hrun
        have hoff := readContentDisposition_offset_pos _ _ hr
        have hnext : s.startIdx + r.offset ≤ s1.startIdx := by
          by_cases hg : headerGuard A1 (s.startIdx + r.offset) = true
          · rw [if_pos hg] at hrun
            have := headerLoop_mono A1 _ _ _ hrun
            simp only [HeaderScanState.startIdx_mk] at this
            omega
          · rw [if_neg hg] at hrun
            cases hrun
            simp only [HeaderScanState.startIdx_mk]
            omega
        have hr2 : readContentDisposition (A2.drop s.startIdx) = .ok r := by
          refine readContentDisposition_agree (c.drop s.startIdx) _ _
            (prefix_drop c A1 h1 _) (prefix_drop c A2 h2 _) r hr ?_
          simp only [List.length_drop]
          omega
        rw [hr2]
        simp only []
        rw [headerGuard_agree c A1 A2 h1 h2 (s.startIdx + r.offset) (by omega)]
        by_cases hg : headerGuard A1 (s.startIdx + r.offset) = true
        · rw [if_pos hg] at hrun ⊢
          exact ih g2 _ _ (by simp only [HeaderScanState.startIdx_mk]; omega)
            (by simp only [HeaderScanState.startIdx_mk]; omega) hrun hbound
        · rw [if_neg hg] at hrun ⊢
          exact hrun
    · rw [if_neg hcd] at hrun
      rw [if_neg (show ¬(jsFalsy s.name &&
          arrayStartsWith (A2.drop s.startIdx) contentDispositionPrefixUTF8) = true from by
        rw [← hcdagree]; exact hcd)]
      by_cases hct : (jsFalsy s.contentType &&
          arrayStartsWith (A1.drop s.startIdx) contentTypePrefixUTF8) = true
      · rw [if_pos hct] at hrun
        rw [if_pos (show (jsFalsy s.contentType &&
            arrayStartsWith (A2.drop s.startIdx) contentTypePrefixUTF8) = true from by
          rw [← hctagree]; exact hct)]
        simp only [] at hrun ⊢
        have hsw : arrayStartsWith (A1.drop s.startIdx) contentTypePrefixUTF8 = true := by
          rw [Bool.and_eq_true] at hct
          exact hct.2
        have hposlen : s.startIdx + contentTypePrefixUTF8.length ≤ A1.length := by
          have := arrayStartsWith_length _ _ hsw
          have h13 : contentTypePrefixUTF8.length = 13 := by decide
          simp only [List.length_drop] at this
          omega
        have hge := getLineEndIdx_ge A1 (s.startIdx + contentTypePrefixUTF8.length) hposlen
        have hnext : getLineEndIdx A1 (s.startIdx + contentTypePrefixUTF8.length) + 2 ≤
            s1.startIdx := by
          by_cases hg : headerGuard A1
              (getLineEndIdx A1 (s.startIdx + contentTypePrefixUTF8.length) + 2) = true
          · rw [if_pos hg] at hrun
            have := headerLoop_mono A1 _ _ _ hrun
            simp only [HeaderScanState.startIdx_mk] at this
            omega
          · rw [if_neg hg] at hrun
            cases hrun
            simp only [HeaderScanState.startIdx_mk]
            omega
        have hgle2 : getLineEndIdx A2 (s.startIdx + contentTypePrefixUTF8.length) =
            getLineEndIdx A1 (s.startIdx + contentTypePrefixUTF8.length) :=
          getLineEndIdx_agree c A1 A2 h1 h2 _ _ rfl (by omega)
        rw [hgle2]
        have hslice : (A2.drop (s.startIdx + contentTypePrefixUTF8.length + 1)).take
            (getLineEndIdx A1 (s.startIdx + contentTypePrefixUTF8.length) -
              (s.startIdx + contentTypePrefixUTF8.length + 1)) =
            (A1.drop (s.startIdx + contentTypePrefixUTF8.length + 1)).take
            (getLineEndIdx A1 (s.startIdx + contentTypePrefixUTF8.length) -
              (s.startIdx + contentTypePrefixUTF8.length + 1)) := by
          refine drop_take_agree c A2 A1 h2 h1 _ _ ?_
          omega
        rw [hslice]
        rw [headerGuard_agree c A1 A2 h1 h2
          (getLineEndIdx A1 (s.startIdx + contentTypePrefixUTF8.length) + 2) (by omega)]
        by_cases hg : headerGuard A1
            (getLineEndIdx A1 (s.startIdx + contentTypePrefixUTF8.length) + 2) = true
        · rw [if_pos hg] at hrun ⊢
          exact ih g2 _ _ (by simp only [HeaderScanState.startIdx_mk]; omega)
            (by simp only [HeaderScanState.startIdx_mk]; omega) hrun hbound
        · rw [if_neg hg] at hrun ⊢
          exact hrun
      · rw [if_neg hct] at hrun
        rw [if_neg (show ¬(jsFalsy s.contentType &&
            arrayStartsWith (A2.drop s.startIdx) contentTypePrefixUTF8) = true from by
          rw [← hctagree]; exact hct)]
        simp only [] at hrun ⊢
        have hnext : s.startIdx + 1 ≤ s1.startIdx := by
          by_cases hg : headerGuard A1 (s.startIdx + 1) = true
          · rw [if_pos hg] at hrun
            have := headerLoop_mono A1 _ _ _ hrun
            simp only [HeaderScanState.startIdx_mk] at this
            omega
          · rw [if_neg hg] at hrun
            cases hrun
            simp only [HeaderScanState.startIdx_mk]
            omega
        rw [headerGuard_agree c A1 A2 h1 h2 (s.startIdx + 1) (by omega)]
        by_cases hg : headerGuard A1 (s.startIdx + 1) = true
        · rw [if_pos hg] at hrun ⊢
          exact ih g2 _ _ (by simp only [HeaderScanState.startIdx_mk]; omega)
            (by simp only [HeaderScanState.startIdx_mk]; omega) hrun hbound
        · rw [if_neg hg] at hrun ⊢
          exact hrun

/-- Agreement of a full header-block scan through a shared prefix, as long
as the scan's final position (the blank line's CR) and the following LF
stay strictly inside the shared prefix. -/
theorem headerScan_agree (c A1 A2 : Buffer) (h1 : c <+: A1) (h2 : c <+: A2)
    (le : Nat) (s1 : HeaderScanState) (hrun : headerScan A1 le = .ok s1)
    (hbound : s1.startIdx + 1 < c.length) : headerScan A2 le = .ok s1 := by
  unfold headerScan at hrun ⊢
  exact headerLoop_agree c A1 A2 h1 h2 _ _ _ _ (by simp; omega) (by simp; omega) hrun hbound

/-- A successful body/boundary scan lands at least two bytes further on, at
a position immediately preceded by a CRLF pair and starting with the
separator. -/
theorem bodyScan_pair (A sep : Buffer) (hsep : sep ≠ []) :
    ∀ fuel q v, bodyScan A sep fuel q = some v →
      q + 2 ≤ v ∧ A.get? (v - 2) = some crByte ∧ A.get? (v - 1) = some lfByte ∧
        arrayStartsWith (A.drop v) sep = true := by
  intro fuel
  induction fuel with
  | zero => intro q v h; rw [bodyScan] at h; cases h
  | succ fuel ih =>
    intro q v h
    have hqle : q ≤ A.length := by
      by_contra hq
      push_neg at hq
      rw [bodyScan_end_diverges A sep hsep _ q (by omega)] at h
      cases h
    rw [bodyScan] at h
    by_cases ht : arrayStartsWith (A.drop (getLineEndIdx A q + 2)) sep = true
    · rw [if_pos ht] at h
      obtain rfl : getLineEndIdx A q + 2 = v := by injection h
      rcases getLineEndIdx_pair_or_end A q with hend | ⟨hcr, hlf⟩
      · exfalso
        rw [hend] at ht
        have hdrop : A.drop (A.length + 2) = [] := List.drop_eq_nil_of_le (by omega)
        rw [hdrop] at ht
        cases sep with
        | nil => exact hsep rfl
        | cons a as => simp [arrayStartsWith, arrayEq] at ht
      · have hge := getLineEndIdx_ge A q hqle
        refine ⟨by omega, ?_, ?_, ht⟩
        · rw [show getLineEndIdx A q + 2 - 2 = getLineEndIdx A q from by omega]
          exact hcr
        · rw [show getLineEndIdx A q + 2 - 1 = getLineEndIdx A q + 1 from by omega]
          exact hlf
    · rw [if_neg ht] at h
      have hih := ih _ _ h
      have hge := getLineEndIdx_ge A q hqle
      exact ⟨by omega, hih.2.1, hih.2.2.1, hih.2.2.2⟩

/-- Runs of the body/boundary scan on two buffers sharing a prefix agree
whenever the found separator position, together with the separator bytes
after it, lies inside the shared prefix. -/
theorem bodyScan_agree (c A1 A2 sep : Buffer) (h1 : c <+: A1) (h2 : c <+: A2)
    (hsep : sep ≠ []) (hsepcr : ∀ b ∈ sep, b ≠ crByte) :
    ∀ fuel q v, bodyScan A1 sep fuel q = some v → v + sep.length ≤ c.length →
      bodyScan A2 sep fuel q = some v := by
  intro fuel
  induction fuel with
  | zero => intro q v h hb; rw [bodyScan] at h; cases h
  | succ fuel ih =>
    intro q v h hb
    have hlenc1 := prefix_length_le c A1 h1
    have hlenc2 := prefix_length_le c A2 h2
    have hsl : 1 ≤ sep.length := by
      cases sep with
      | nil => exact absurd rfl hsep
      | cons a as => simp
    have hp := bodyScan_pair A1 sep hsep _ _ _ h
    have hcrc : c.get? (v - 2) = some crByte := by
      rw [← prefix_get c A1 h1 (v - 2) (by omega)]
      exact hp.2.1
    rw [bodyScan] at h
    rw [bodyScan]
    by_cases ht : arrayStartsWith (A1.drop (getLineEndIdx A1 q + 2)) sep = true
    · rw [if_pos ht] at h
      obtain rfl : getLineEndIdx A1 q + 2 = v := by injection h
      have hgle2 : getLineEndIdx A2 q = getLineEndIdx A1 q :=
        getLineEndIdx_agree c A1 A2 h1 h2 q _ rfl (by omega)
      rw [hgle2]
      have htw : arrayStartsWith (A2.drop (getLineEndIdx A1 q + 2)) sep =
          arrayStartsWith (A1.drop (getLineEndIdx A1 q + 2)) sep := by
        unfold arrayStartsWith arrayEq
        rw [drop_take_agree c A2 A1 h2 h1 _ _ (by omega)]
      rw [htw, if_pos ht]
    · rw [if_neg ht] at h
      have hpsub := bodyScan_pair A1 sep hsep _ _ _ h
      have hgle2 : getLineEndIdx A2 q = getLineEndIdx A1 q :=
        getLineEndIdx_agree c A1 A2 h1 h2 q _ rfl (by omega)
      rw [hgle2]
      have htw := arrayStartsWith_agree_cr c A1 A2 h1 h2 sep hsepcr
        (getLineEndIdx A1 q + 2) (v - 2) (by omega) hcrc (by omega)
      rw [← htw, if_neg ht]
      exact ih _ _ h hb

/-- Runs of the preamble-skip loop on two buffers sharing a prefix agree
whenever the run on the shorter buffer stops strictly inside the shared
prefix (which forces the stop to be a separator match, not buffer
exhaustion). -/
theorem preambleLoopGo_agree (c A2 sep : Buffer) (h2 : c <+: A2) :
    ∀ fuel1 fuel2 s P,
      c.length + 1 ≤ fuel1 + s →
      A2.length + 1 ≤ fuel2 + s →
      s ≤ c.length →
      preambleLoopGo c sep fuel1 s = P →
      P < c.length →
      preambleLoopGo A2 sep fuel2 s = P := by
  intro fuel1
  induction fuel1 with
  | zero =>
    intro fuel2 s P hs1 hs2 hsc hrun hP
    rw [preambleLoopGo] at hrun
    exact absurd hP (by omega)
  | succ fuel1 ih =>
    intro fuel2 s P hs1 hs2 hsc hrun hP
    have hlenc2 := prefix_length_le c A2 h2
    obtain ⟨g2, rfl⟩ : ∃ g2, fuel2 = g2 + 1 := ⟨fuel2 - 1, by omega⟩
    rw [preambleLoopGo] at hrun
    rw [preambleLoopGo]
    by_cases hcond : (!arrayStartsWith ((c.drop s).take (getLineEndIdx c s - s)) sep &&
        decide (getLineEndIdx c s + 2 < c.length)) = true
    · rw [if_pos hcond] at hrun
      have hnextlt : getLineEndIdx c s + 2 < c.length := by
        rw [Bool.and_eq_true] at hcond
        exact of_decide_eq_true hcond.2
      have hsw : arrayStartsWith ((c.drop s).take (getLineEndIdx c s - s)) sep = false := by
        rw [Bool.and_eq_true] at hcond
        have hnot := hcond.1
        cases hv : arrayStartsWith ((c.drop s).take (getLineEndIdx c s - s)) sep
        · rfl
        · rw [hv] at hnot; simp at hnot
      have hge := getLineEndIdx_ge c s hsc
      have hgle2 : getLineEndIdx A2 s = getLineEndIdx c s :=
        getLineEndIdx_agree c c A2 (show c <+: c from ⟨[], by simp⟩) h2 s _ rfl (by omega)
      rw [hgle2]
      have hline : (A2.drop s).take (getLineEndIdx c s - s) =
          (c.drop s).take (getLineEndIdx c s - s) :=
        prefix_drop_take c A2 h2 s _ (by omega)
      rw [if_pos (show (!arrayStartsWith ((A2.drop s).take (getLineEndIdx c s - s)) sep &&
          decide (getLineEndIdx c s + 2 < A2.length)) = true from by
        rw [hline, hsw, decide_eq_true (show getLineEndIdx c s + 2 < A2.length from by omega)]
        rfl)]
      exact ih g2 _ _ (by omega) (by omega) (by omega) hrun hP
    · rw [if_neg hcond] at hrun
      subst hrun
      have hge := getLineEndIdx_ge c s hsc
      have hsw : arrayStartsWith ((c.drop s).take (getLineEndIdx c s - s)) sep = true := by
        cases hv : arrayStartsWith ((c.drop s).take (getLineEndIdx c s - s)) sep
        · exfalso
          apply hcond
          rw [hv, decide_eq_true (show getLineEndIdx c s + 2 < c.length from hP)]
          rfl
        · rfl
      have hgle2 : getLineEndIdx A2 s = getLineEndIdx c s :=
        getLineEndIdx_agree c c A2 (show c <+: c from ⟨[], by simp⟩) h2 s _ rfl (by omega)
      rw [hgle2]
      have hline : (A2.drop s).take (getLineEndIdx c s - s) =
          (c.drop s).take (getLineEndIdx c s - s) :=
        prefix_drop_take c A2 h2 s _ (by omega)
      rw [if_neg (show ¬(!arrayStartsWith ((A2.drop s).take (getLineEndIdx c s - s)) sep &&
          decide (getLineEndIdx c s + 2 < A2.length)) = true from by
        rw [hline, hsw]
        simp)]

/-- Forgetting the instrumented break position recovers `partsLoop`. -/
theorem partsLoopPos_proj (A sep : Buffer) (procs : ContentProcessors) :
    ∀ fuel s le res,
      partsLoop A sep procs fuel s le res =
        Option.map (Except.map Prod.fst) (partsLoopPos A sep procs fuel s le res) := by
  intro fuel
  induction fuel with
  | zero => intro s le res; rfl
  | succ fuel ih =>
    intro s le res
    rw [partsLoop, partsLoopPos]
    by_cases hin : s < A.length
    · rw [if_pos hin, if_pos hin]
      cases hhs : headerScan A le with
      | error e => rfl
      | ok s1 =>
        simp only []
        by_cases hname : jsFalsy s1.name = true
        · rw [if_pos hname, if_pos hname]
          rfl
        · rw [if_neg hname, if_neg hname]
          cases hbs : bodyScan A sep fuel (s1.startIdx + 1) with
          | none => rfl
          | some le2 =>
            simp only []
            cases hpc : processContent procs (s1.contentType.getD "text/plain")
                ((A.drop (s1.startIdx + 1 + 1)).take (le2 - 2 - (s1.startIdx + 1 + 1)))
                s1.filename with
            | error e => rfl
            | ok content =>
              simp only []
              by_cases hfin : (((A.drop (le2 + sep.length)).take
                    (getLineEndIdx A le2 - (le2 + sep.length))).get? 0 == some finalByte &&
                  ((A.drop (le2 + sep.length)).take
                    (getLineEndIdx A le2 - (le2 + sep.length))).get? 1 == some finalByte) = true
              · rw [if_pos hfin, if_pos hfin]
                rfl
              · rw [if_neg hfin, if_neg hfin]
                exact ih le2 (getLineEndIdx A le2 + 2) _
    · rw [if_neg hin, if_neg hin]
      rfl

theorem parseMultipartFormDataPos_proj (fuel : Nat) (inputArray : Buffer)
    (boundary : String) (procs : ContentProcessors) :
    parseMultipartFormData fuel inputArray boundary procs =
      Option.map (Except.map Prod.fst)
        (parseMultipartFormDataPos fuel inputArray boundary procs) := by
  unfold parseMultipartFormData parseMultipartFormDataPos
  exact partsLoopPos_proj _ _ _ fuel _ _ _

theorem headerScan_mono (A : Buffer) (le : Nat) (s1 : HeaderScanState)
    (h : headerScan A le = .ok s1) : le ≤ s1.startIdx := by
  unfold headerScan at h
  have := headerLoop_mono A _ _ _ h
  simpa using this

/-- Positional bounds on the break exit of the instrumented per-part loop:
the break position lies past the iteration's header-scan start and the
separator match at the break position is genuine. -/
theorem partsLoopPos_brk (A sep : Buffer) (procs : ContentProcessors) (hsep : sep ≠ []) :
    ∀ fuel s le res r brk,
      partsLoopPos A sep procs fuel s le res = some (.ok (r, some brk)) →
      le + 3 ≤ brk ∧ arrayStartsWith (A.drop brk) sep = true := by
  intro fuel
  induction fuel with
  | zero => intro s le res r brk h; rw [partsLoopPos] at h; cases h
  | succ fuel ih =>
    intro s le res r brk h
    have hsl : 1 ≤ sep.length := by
      cases sep with
      | nil => exact absurd rfl hsep
      | cons a as => simp
    rw [partsLoopPos] at h
    by_cases hin : s < A.length
    · rw [if_pos hin] at h
      cases hhs : headerScan A le with
      | error e => rw [hhs] at h; cases h
      | ok s1 =>
        rw [hhs] at h
        simp only [] at h
        by_cases hname : jsFalsy s1.name = true
        · rw [if_pos hname] at h
          cases h
        · rw [if_neg hname] at h
          cases hbs : bodyScan A sep fuel (s1.startIdx + 1) with
          | none => rw [hbs] at h; cases h
          | some le2 =>
            rw [hbs] at h
            simp only [] at h
            have hmono := headerScan_mono A le s1 hhs
            have hbp := bodyScan_pair A sep hsep _ _ _ hbs
            have hle2A : le2 + sep.length ≤ A.length := by
              have := arrayStartsWith_length _ _ hbp.2.2.2
              simp only [List.length_drop] at this
              omega
            cases hpc : processContent procs (s1.contentType.getD "text/plain")
                ((A.drop (s1.startIdx + 1 + 1)).take (le2 - 2 - (s1.startIdx + 1 + 1)))
                s1.filename with
            | error e => rw [hpc] at h; cases h
            | ok content =>
              rw [hpc] at h
              simp only [] at h
              by_cases hfin : (((A.drop (le2 + sep.length)).take
                    (getLineEndIdx A le2 - (le2 + sep.length))).get? 0 == some finalByte &&
                  ((A.drop (le2 + sep.length)).take
                    (getLineEndIdx A le2 - (le2 + sep.length))).get? 1 == some finalByte) = true
              · rw [if_pos hfin] at h
                have hbrk : le2 = brk := by
                  injection h with h1
                  injection h1 with h2
                  injection h2 with h3 h4
                  injection h4
                subst hbrk
                exact ⟨by omega, hbp.2.2.2⟩
              · rw [if_neg hfin] at h
                have hih := ih _ _ _ _ _ h
                have hge := getLineEndIdx_ge A le2 (by omega)
                exact ⟨by omega, hih.2⟩
    · rw [if_neg hin] at h
      injection h with h1
      injection h1 with h2
      injection h2 with h3 h4
      cases h4

/-- Master agreement for the instrumented per-part loop: a run on a buffer
that exits via the terminal `--` break, with the terminal separator line's
closing CRLF still inside that buffer viewed as a shared prefix of a longer
buffer, is reproduced verbatim on the longer buffer. -/
theorem partsLoopPos_agree (c A2 sep : Buffer) (procs : ContentProcessors)
    (h2 : c <+: A2) (hsep : sep ≠ []) (hsepcr : ∀ b ∈ sep, b ≠ crByte) (brk : Nat)
    (hterm : getLineEndIdx c brk + 1 < c.length) :
    ∀ fuel s le res r,
      partsLoopPos c sep procs fuel s le res = some (.ok (r, some brk)) →
      partsLoopPos A2 sep procs fuel s le res = some (.ok (r, some brk)) := by
  intro fuel
  induction fuel with
  | zero => intro s le res r h; rw [partsLoopPos] at h; cases h
  | succ fuel ih =>
    intro s le res r h
    have hlenc2 := prefix_length_le c A2 h2
    have hsl : 1 ≤ sep.length := by
      cases sep with
      | nil => exact absurd rfl hsep
      | cons a as => simp
    rw [partsLoopPos] at h
    rw [partsLoopPos]
    by_cases hin : s < c.length
    · rw [if_pos hin] at h
      rw [if_pos (show s < A2.length from by omega)]
      cases hhs : headerScan c le with
      | error e => rw [hhs] at h; cases h
      | ok s1 =>
        rw [hhs] at h
        simp only [] at h
        by_cases hname : jsFalsy s1.name = true
        · rw [if_pos hname] at h
          cases h
        · rw [if_neg hname] at h
          cases hbs : bodyScan c sep fuel (s1.startIdx + 1) with
          | none => rw [hbs] at h; cases h
          | some le2 =>
            rw [hbs] at h
            simp only [] at h
            have hmono := headerScan_mono c le s1 hhs
            have hbp := bodyScan_pair c sep hsep _ _ _ hbs
            have hle2c : le2 + sep.length ≤ c.length := by
              have := arrayStartsWith_length _ _ hbp.2.2.2
              simp only [List.length_drop] at this
              omega
            have hhs2 : headerScan A2 le = .ok s1 :=
              headerScan_agree c c A2 (show c <+: c from ⟨[], by simp⟩) h2 le s1 hhs
                (by omega)
            rw [hhs2]
            simp only []
            rw [if_neg hname]
            have hbs2 : bodyScan A2 sep fuel (s1.startIdx + 1) = some le2 :=
              bodyScan_agree c c A2 sep (show c <+: c from ⟨[], by simp⟩) h2 hsep hsepcr
                fuel _ _ hbs hle2c
            rw [hbs2]
            simp only []
            have hslice : (A2.drop (s1.startIdx + 1 + 1)).take
                  (le2 - 2 - (s1.startIdx + 1 + 1)) =
                (c.drop (s1.startIdx + 1 + 1)).take (le2 - 2 - (s1.startIdx + 1 + 1)) :=
              prefix_drop_take c A2 h2 _ _ (by omega)
            rw [hslice]
            cases hpc : processContent procs (s1.contentType.getD "text/plain")
                ((c.drop (s1.startIdx + 1 + 1)).take (le2 - 2 - (s1.startIdx + 1 + 1)))
                s1.filename with
            | error e =>
              rw [hpc] at h
              cases h
            | ok content =>
              rw [hpc] at h
              simp only [] at h
              simp only []
              by_cases hfin : (((c.drop (le2 + sep.length)).take
                    (getLineEndIdx c le2 - (le2 + sep.length))).get? 0 == some finalByte &&
                  ((c.drop (le2 + sep.length)).take
                    (getLineEndIdx c le2 - (le2 + sep.length))).get? 1 == some finalByte) = true
              · rw [if_pos hfin] at h
                have hbrk : le2 = brk := by
                  injection h with h1
                  injection h1 with h2'
                  injection h2' with h3 h4
                  injection h4
                have hgle2 : getLineEndIdx A2 le2 = getLineEndIdx c le2 :=
                  getLineEndIdx_agree c c A2 (show c <+: c from ⟨[], by simp⟩) h2 le2 _ rfl
                    (by rw [hbrk]; exact hterm)
                rw [hgle2]
                have hline2 : (A2.drop (le2 + sep.length)).take
                      (getLineEndIdx c le2 - (le2 + sep.length)) =
                    (c.drop (le2 + sep.length)).take
                      (getLineEndIdx c le2 - (le2 + sep.length)) := by
                  refine prefix_drop_take c A2 h2 _ _ ?_
                  have hterm2 : getLineEndIdx c le2 + 1 < c.length := by
                    rw [hbrk]; exact hterm
                  omega
                rw [hline2, if_pos hfin]
                exact h
              · rw [if_neg hfin] at h
                have hbb := partsLoopPos_brk c sep procs hsep _ _ _ _ _ _ h
                have hbrkc : brk + sep.length ≤ c.length := by
                  have := arrayStartsWith_length _ _ hbb.2
                  simp only [List.length_drop] at this
                  omega
                have hgle2 : getLineEndIdx A2 le2 = getLineEndIdx c le2 :=
                  getLineEndIdx_agree c c A2 (show c <+: c from ⟨[], by simp⟩) h2 le2 _ rfl
                    (by omega)
                rw [hgle2]
                have hline2 : (A2.drop (le2 + sep.length)).take
                      (getLineEndIdx c le2 - (le2 + sep.length)) =
                    (c.drop (le2 + sep.length)).take
                      (getLineEndIdx c le2 - (le2 + sep.length)) :=
                  prefix_drop_take c A2 h2 _ _ (by omega)
                rw [hline2, if_neg hfin]
                exact ih _ _ _ _ h
    · rw [if_neg hin] at h
      injection h with h1
      injection h1 with h2'
      injection h2' with h3 h4
      cases h4

/-- C9.  Parsing stops at the terminal boundary line: if the instrumented
parse of `common` succeeds by breaking at the terminal separator line that
starts at position `brk`, and the CRLF closing that line lies inside
`common` (so `common` runs exactly up to and including the terminal
boundary line), then appending arbitrary epilogue bytes `epi` changes
nothing: the parse of `common ++ epi` returns the identical `ParseResult`,
so no epilogue byte contributes to any entry.  The boundary token is
assumed to contain no CR byte (true of every legal boundary). -/
theorem C9_epilogue_invariance (common epi : Buffer) (boundary : String)
    (procs : ContentProcessors) (fuel : Nat) (res : ParseResult) (brk : Nat)
    (hcr : ∀ b ∈ encodeUTF8 boundary, b ≠ crByte)
    (hrun : parseMultipartFormDataPos fuel common boundary procs =
      some (.ok (res, some brk)))
    (hterm : getLineEndIdx common brk + 1 < common.length) :
    parseMultipartFormData fuel common boundary procs = some (.ok res) ∧
    parseMultipartFormData fuel (common ++ epi) boundary procs = some (.ok res) := by
  have hsepcr : ∀ b ∈ encodeUTF8 ("--" ++ boundary), b ≠ crByte := by
    rw [encodeUTF8_dashdash]
    intro b hb
    simp only [List.mem_cons] at hb
    rcases hb with rfl | rfl | hb
    · decide
    · decide
    · exact hcr b hb
  have hsep : encodeUTF8 ("--" ++ boundary) ≠ [] := by
    rw [encodeUTF8_dashdash]
    exact List.cons_ne_nil _ _
  have hrun' : partsLoopPos common (encodeUTF8 ("--" ++ boundary))
      (contentProcessorsWithDefaults procs) fuel
      (preambleLoop common (encodeUTF8 ("--" ++ boundary)))
      (preambleLoop common (encodeUTF8 ("--" ++ boundary))) [] =
      some (.ok (res, some brk)) := hrun
  have hPlt : preambleLoop common (encodeUTF8 ("--" ++ boundary)) < common.length := by
    by_contra hP
    push_neg at hP
    have hfuel : 1 ≤ fuel := by
      by_contra hf
      have h0 : fuel = 0 := by omega
      rw [h0, partsLoopPos] at hrun'
      cases hrun'
    obtain ⟨f, rfl⟩ : ∃ f, fuel = f + 1 := ⟨fuel - 1, by omega⟩
    rw [partsLoopPos, if_neg (by omega)] at hrun'
    injection hrun' with h1
    injection h1 with h2'
    injection h2' with h3 h4
    cases h4
  have hpre2 := preambleLoopGo_agree common (common ++ epi) (encodeUTF8 ("--" ++ boundary))
    ⟨epi, rfl⟩ (common.length + 1) ((common ++ epi).length + 1) 0
    (preambleLoop common (encodeUTF8 ("--" ++ boundary)))
    (by omega) (by omega) (by omega) rfl hPlt
  have hrun2 : partsLoopPos (common ++ epi) (encodeUTF8 ("--" ++ boundary))
      (contentProcessorsWithDefaults procs) fuel
      (preambleLoop common (encodeUTF8 ("--" ++ boundary)))
      (preambleLoop common (encodeUTF8 ("--" ++ boundary))) [] =
      some (.ok (res, some brk)) :=
    partsLoopPos_agree common (common ++ epi) _ _ ⟨epi, rfl⟩ hsep hsepcr brk hterm
      fuel _ _ _ _ hrun'
  constructor
  · rw [parseMultipartFormDataPos_proj fuel common boundary procs, hrun]
    rfl
  · rw [parseMultipartFormDataPos_proj fuel (common ++ epi) boundary procs]
    have hpos2 : parseMultipartFormDataPos fuel (common ++ epi) boundary procs =
        some (.ok (res, some brk)) := by
      show partsLoopPos (common ++ epi) (encodeUTF8 ("--" ++ boundary))
          (contentProcessorsWithDefaults procs) fuel
          (preambleLoop (common ++ epi) (encodeUTF8 ("--" ++ boundary)))
          (preambleLoop (common ++ epi) (encodeUTF8 ("--" ++ boundary))) [] =
        some (.ok (res, some brk))
      rw [show preambleLoop (common ++ epi) (encodeUTF8 ("--" ++ boundary)) =
        preambleLoop common (encodeUTF8 ("--" ++ boundary)) from hpre2]
      exact hrun2
    rw [hpos2]
    rfl

/-- Closed witness for C9: a one-part payload whose CRLF-terminated
terminal boundary line is followed by epilogue bytes that include a fake
boundary line; the parse result is that of the clean payload. -/
theorem C9_witness :
    parseMultipartFormData 2
        (encodeUTF8 "--B\r\nContent-Disposition: form-data; name=\"a\"\r\n\r\nok\r\n--B--\r\n" ++
          encodeUTF8 "trailing junk\r\n--ignored--") "B" [] =
      some (.ok [("a", ResultValue.single ⟨"text/plain", Value.str "ok", none⟩)]) :=
  (C9_epilogue_invariance
    (encodeUTF8 "--B\r\nContent-Disposition: form-data; name=\"a\"\r\n\r\nok\r\n--B--\r\n")
    (encodeUTF8 "trailing junk\r\n--ignored--") "B" [] 2
    [("a", ResultValue.single ⟨"text/plain", Value.str "ok", none⟩)] 53
    (by decide) rfl (by decide)).2
